import Mathlib

/-!
# Verification of the Jordan-splitting core of `siegel_series.py`

This file embeds the Jordan-block normalization algorithms of the repository
(`does_2adically_rep_zero`, `_trans_jordan_dec_2`, `jordan_blocks_odd`,
`jordan_blocks_2`, `_blocks_to_quad_form`, and the dispatch of
`siegel_series_polynomial`) as executable Lean definitions, and proves the
specification's claims about them.

External collaborators (the Sage decomposition primitive
`jordan_blocks_by_scale_and_unimodular`, the Legendre-symbol oracle, the least
quadratic nonresidue) are modelled by taking their outputs as inputs: a scale
decomposition is a list of `(scale, data)` pairs, and the Legendre symbol is an
explicit function parameter `chi` constrained by hypotheses stating its
contract.  Python integers are `ℤ`; Python's `%` on a positive modulus agrees
with Lean's `Int.emod`.  The markers `"h"`/`"y"` and unit residues, which the
source keeps in one heterogeneous list, are modelled by the sum type `JB`.
-/

namespace SiegelSeries

/-- Embedding of `does_2adically_rep_zero` (source lines 14-27): the triple
nested loop over `[0, 1, 4]` with an early `return True` is `List.any`; the
Python truthiness test `any(w % 2 for w in [x, y, z])` holds iff some
`w % 2 == 1`. -/
def does_2adically_rep_zero (a b c : ℤ) : Bool :=
  [0, 1, 4].any fun x =>
    [0, 1, 4].any fun y =>
      [0, 1, 4].any fun z =>
        (x % 2 == 1 || y % 2 == 1 || z % 2 == 1) && ((a * x + b * y + c * z) % 8 == 0)

/-- A 2-adic Jordan block label: an odd unit residue (a diagonal entry), or one
of the two string markers `"h"` (hyperbolic plane) and `"y"` (the anisotropic
even pair) of the source. -/
inductive JB where
  | unit (r : ℤ)
  | h
  | y
deriving DecidableEq

/-- `b in [hyp2_name, y2_name]` of the source: `b` is one of the markers. -/
def isMarkerB : JB → Bool
  | .unit _ => false
  | .h => true
  | .y => true

/-- `[a for a in l if a not in [hyp2_name, y2_name]]` of the source: the unit
residues of a mixed list, in order. -/
def resVals (l : List JB) : List ℤ :=
  l.filterMap fun b => match b with | .unit r => some r | _ => none

/-- The replacement of a unit triple in `_trans_jordan_dec_2` (source lines
43-49): with `u = u1*u2*u3`, the triple becomes `[(-u) % 8, "h"]` when the
ternary form represents zero 2-adically, else `[(3*u) % 8, "y"]`. -/
def tripleRepl (u1 u2 u3 : ℤ) : List JB :=
  let u := u1 * u2 * u3
  if does_2adically_rep_zero u1 u2 u3 then [JB.unit ((-u) % 8), JB.h]
  else [JB.unit ((3 * u) % 8), JB.y]

/-- Fuel-indexed embedding of `_trans_jordan_dec_2` (source lines 30-56).
The source's recursion terminates because the re-reduction list `l_diag` never
has more than 3 elements; fuel `us.length` is always sufficient (proved in the
stability lemmas below), and `trans_jordan_dec_2` instantiates it so.  When the
fuel is 0 or the list has at most two elements, the list is returned as-is
(source lines 41-42). -/
def transF : ℕ → List ℤ → List JB
  | 0, us => us.map JB.unit
  | f + 1, u1 :: u2 :: u3 :: rest =>
      let l := transF f rest ++ tripleRepl u1 u2 u3
      if (resVals l).length ≤ 2 then l
      else transF f (resVals l) ++ l.filter isMarkerB
  | _ + 1, us => us.map JB.unit

/-- `_trans_jordan_dec_2` (source lines 30-56). -/
def trans_jordan_dec_2 (us : List ℤ) : List JB := transF us.length us

/-- The tail of `_trans_jordan_dec_2` (source lines 50-56): if the extended
list holds at most two unit residues it is returned as-is, otherwise the unit
residues are re-reduced and the markers appended unchanged. -/
def reReduce (l : List JB) : List JB :=
  if (resVals l).length ≤ 2 then l
  else trans_jordan_dec_2 (resVals l) ++ l.filter isMarkerB

/-- Gram matrices are square lists of rows of integers.  (The Sage unimodular
constituents at `p = 2` have integral Gram matrices; only the top-left entry is
ever inspected by the splitter.) -/
abbrev Mat := List (List ℤ)

/-- `m.is_zero()` of Sage: every entry is zero. -/
def isZeroMat (m : Mat) : Bool := m.all fun row => row.all (· == 0)

/-- `m[0, 0]`. -/
def entry00 (m : Mat) : ℤ := (m.headD []).headD 0

/-- `m.submatrix(k, k)`: delete the first `k` rows and columns. -/
def submat (k : ℕ) (m : Mat) : Mat := (m.drop k).map (List.drop k)

theorem isZeroMat_false_pos {m : Mat} (hm : ¬ isZeroMat m = true) : 0 < m.length := by
  cases m with
  | nil => exact absurd rfl hm
  | cons r t => exact Nat.succ_pos _

/-- The peeling loop of `jordan_blocks_2` for one scale class (source lines
98-108): while the Gram matrix is not zero, inspect the top-left entry `m00`;
if odd emit `(a, m00 % 8)` and shrink by one, if zero emit `(a+1, "h")` and
shrink by two, otherwise emit `(a+1, "y")` and shrink by two. -/
def peel (a : ℕ) (m : Mat) : List (ℕ × JB) :=
  if hz : isZeroMat m then []
  else
    if entry00 m % 2 = 1 then (a, JB.unit (entry00 m % 8)) :: peel a (submat 1 m)
    else if entry00 m = 0 then (a + 1, JB.h) :: peel a (submat 2 m)
    else (a + 1, JB.y) :: peel a (submat 2 m)
termination_by m.length
decreasing_by
  · have := isZeroMat_false_pos hz
    simp only [submat, List.length_map, List.length_drop]
    omega
  · have := isZeroMat_false_pos hz
    simp only [submat, List.length_map, List.length_drop]
    omega
  · have := isZeroMat_false_pos hz
    simp only [submat, List.length_map, List.length_drop]
    omega

/-- Modelled from the spec: `list_group_by` from the external `degree2.utils`
module (spec §4.4: "group all plain `Unit` entries by scale").  The groups are
keyed by the distinct scales; each group holds, in order, every entry with that
scale.  The key order is immaterial downstream (the result is re-sorted). -/
def listGroupBy (l : List (ℕ × JB)) : List (ℕ × List (ℕ × JB)) :=
  ((l.map Prod.fst).dedup).map fun k => (k, l.filter fun x => x.1 == k)

/-- Descending-by-scale comparison, `sorted(res, key=lambda x: -x[0])`. -/
def descRel (x y : ℕ × JB) : Prop := y.1 ≤ x.1

/-- Non-increasing scale order on odd-prime blocks. -/
def descRelOdd (x y : ℕ × ℤ) : Prop := y.1 ≤ x.1

instance : DecidableRel descRel := fun x y => Nat.decLe y.1 x.1

instance : IsTotal (ℕ × JB) descRel := ⟨fun a b => le_total b.1 a.1⟩

instance : IsTrans (ℕ × JB) descRel := ⟨fun _ _ _ hab hbc => le_trans hbc hab⟩

/-- The unit residues held by a list of scale-tagged blocks
(`[_b for _, _b in us_w_idx]` after the `diag_elts` filter). -/
def unitValsOf (g : List (ℕ × JB)) : List ℤ :=
  g.filterMap fun x => match x.2 with | .unit r => some r | _ => none

/-- The `ls` accumulator of `jordan_blocks_2` (source lines 95-108): peel every
scale class in order. -/
def peelAll (scs : List (ℕ × Mat)) : List (ℕ × JB) :=
  scs.flatMap fun sc => peel sc.1 sc.2

/-- The loop body at source lines 116-120: re-tag the reducer's output for one
scale group — markers move to `scale + 1`, residues keep `scale`. -/
def groupOut (g : ℕ × List (ℕ × JB)) : List (ℕ × JB) :=
  (trans_jordan_dec_2 (unitValsOf g.2)).map fun b =>
    if isMarkerB b then (g.1 + 1, b) else (g.1, b)

/-- The unsorted `res` list of `jordan_blocks_2` (source lines 112-120): the
markers from the peeling phase, followed by the re-reduced unit groups. -/
def res2 (scs : List (ℕ × Mat)) : List (ℕ × JB) :=
  (peelAll scs).filter (fun x => isMarkerB x.2) ++
    (listGroupBy ((peelAll scs).filter fun x => !(isMarkerB x.2))).flatMap groupOut

/-- Embedding of `jordan_blocks_2` (source lines 77-121).  The external
decomposition primitive's output is the input `scs`: the ascending list of
`(scale, Gram matrix of the unimodular constituent)`.  Each class is peeled,
the unit diagonal entries are regrouped by scale and re-reduced by
`_trans_jordan_dec_2` (markers produced there live at `scale + 1`), and the
result is sorted by non-increasing scale. -/
def jordan_blocks_2 (scs : List (ℕ × Mat)) : List (ℕ × JB) :=
  List.insertionSort descRel (res2 scs)

/-- Embedding of `jordan_blocks_odd` (source lines 58-74).  The external
decomposition primitive's output is the input `scs`: the ascending list of
`(scale, diagonal of the unimodular constituent's Gram matrix)`.  The external
Legendre-symbol oracle is the parameter `chi`, and `u` is the external least
quadratic nonresidue. -/
def jordan_blocks_odd (scs : List (ℕ × List ℤ)) (chi : ℤ → ℤ) (u : ℤ) :
    List (ℕ × ℤ) :=
  (scs.flatMap fun sc => sc.2.map fun t =>
    if chi t = 1 then (sc.1, 1) else (sc.1, u)).reverse

/-- The branch structure of `siegel_series_polynomial` (source lines 124-135):
there is no validation of `p` — `p == 2` selects the 2-adic splitter and every
other value of `p` whatsoever is passed to the odd-prime path.  The two
possible decompositions (external) are taken as inputs. -/
def siegel_series_blocks (p : ℕ) (dec2 : List (ℕ × Mat))
    (decOdd : List (ℕ × List ℤ)) (chi : ℤ → ℤ) (u : ℤ) :
    Sum (List (ℕ × JB)) (List (ℕ × ℤ)) :=
  if p = 2 then Sum.inl (jordan_blocks_2 dec2) else Sum.inr (jordan_blocks_odd decOdd chi u)

/-- The Gram matrix `m * 2 * p^idx` of one block in `_blocks_to_quad_form`
(source lines 138-146): `"h"` is `[[0,1/2],[1/2,0]]`, `"y"` is
`[[1,1/2],[1/2,1]]`, a residue `b` is `[[b]]`, each doubled and scaled. -/
def blockMat (p : ℤ) (b : ℕ × JB) : Mat :=
  match b.2 with
  | .unit r => [[r * 2 * p ^ b.1]]
  | .h => [[0, p ^ b.1], [p ^ b.1, 0]]
  | .y => [[2 * p ^ b.1, p ^ b.1], [p ^ b.1, 2 * p ^ b.1]]

/-- Orthogonal direct sum of two Gram matrices (the `+` of Sage quadratic
forms). -/
def dsum (A B : Mat) : Mat :=
  (A.map fun row => row ++ List.replicate B.length 0) ++
    (B.map fun row => List.replicate A.length 0 ++ row)

/-- Embedding of `_blocks_to_quad_form` (source lines 138-147).  Python's
`reduce(operator.add, qfs)` has no initial value, so it raises `TypeError` on
an empty sequence: that failure is modelled as `none`. -/
def blocks_to_quad_form (blcs : List (ℕ × JB)) (p : ℤ) : Option Mat :=
  match blcs.map (blockMat p) with
  | [] => none
  | q :: qs => some (qs.foldl dsum q)

/-- A constituent of Sage's 2-adic local normal form, which is what the
external primitive `jordan_blocks_by_scale_and_unimodular(2)` delivers for each
scale: an odd 1x1 unit `[u]`, the hyperbolic pair `[[0,1],[1,0]]`, or the
anisotropic even pair `[[2,1],[1,2]]`. -/
inductive Atom where
  | unit (u : ℤ)
  | hyp
  | ypair
deriving DecidableEq

def atomRank : Atom → ℕ
  | .unit _ => 1
  | .hyp => 2
  | .ypair => 2

def atomsSize (l : List Atom) : ℕ := (l.map atomRank).sum

/-- A row of `n` zeros. -/
def zrow (n : ℕ) : List ℤ := List.replicate n 0

/-- The block-diagonal Gram matrix assembled from a list of normal-form
constituents. -/
def toMatrix : List Atom → Mat
  | [] => []
  | .unit u :: rest => (u :: zrow (atomsSize rest)) :: (toMatrix rest).map (0 :: ·)
  | .hyp :: rest =>
      (0 :: 1 :: zrow (atomsSize rest)) :: (1 :: 0 :: zrow (atomsSize rest)) ::
        (toMatrix rest).map fun r => 0 :: 0 :: r
  | .ypair :: rest =>
      (2 :: 1 :: zrow (atomsSize rest)) :: (1 :: 2 :: zrow (atomsSize rest)) ::
        (toMatrix rest).map fun r => 0 :: 0 :: r

/-- What the peeling loop emits for one normal-form constituent found at scale
`a`. -/
def emitAtom (a : ℕ) : Atom → ℕ × JB
  | .unit u => (a, JB.unit (u % 8))
  | .hyp => (a + 1, JB.h)
  | .ypair => (a + 1, JB.y)

/-- `(-1)^n`. -/
def hsgn (n : ℕ) : ℤ := if n % 2 = 0 then 1 else -1

/-- `ε(u) = (u-1)/2 mod 2` for odd `u`, read off `u mod 8`. -/
def eps (u : ℤ) : ℕ := if u % 8 = 3 ∨ u % 8 = 7 then 1 else 0

/-- `ω(u) = (u²-1)/8 mod 2` for odd `u`, read off `u mod 8`. -/
def omg (u : ℤ) : ℕ := if u % 8 = 3 ∨ u % 8 = 5 then 1 else 0

/-- Modelled from the spec (§3, §6, §8: the Hasse invariant and p-adic
equivalence are external verification oracles): the 2-adic Hilbert symbol
`(2^e·u, 2^f·v)₂ = (-1)^{ε(u)ε(v) + e·ω(v) + f·ω(u)}` of two diagonal entries
given as (2-valuation, odd unit) pairs. -/
def hilbert2 (d e : ℕ × ℤ) : ℤ :=
  hsgn (eps d.2 * eps e.2 + d.1 % 2 * omg e.2 + e.1 % 2 * omg d.2)

/-- O'Meara's Hasse invariant `∏_{i ≤ j} (d_i, d_j)` of a diagonalized form,
for a generic symbol function `hb`. -/
def hasseGen (hb : ℕ × ℤ → ℕ × ℤ → ℤ) : List (ℕ × ℤ) → ℤ
  | [] => 1
  | d :: l => hb d d * (l.map (hb d)).prod * hasseGen hb l

/-- Modelled from the spec: the 2-adic Hasse invariant of a form given by its
diagonal entries `2^e·u`. -/
def hasse2 : List (ℕ × ℤ) → ℤ := hasseGen hilbert2

/-- Modelled from the spec: the Hilbert symbol at an odd prime `p`,
`(p^e·u, p^f·v)_p = (-1)^{e·f·ε(p)}·χ(v)^e·χ(u)^f`, where `χ` is the external
Legendre-symbol oracle at `p` and `ep = ε(p) ∈ {0,1}` is 1 iff `p ≡ 3 mod 4`. -/
def hilbertOdd (ep : ℕ) (chi : ℤ → ℤ) (d e : ℕ × ℤ) : ℤ :=
  hsgn (d.1 * e.1 * ep) * chi e.2 ^ d.1 * chi d.2 ^ e.1

/-- Modelled from the spec: the Hasse invariant at an odd prime. -/
def hasseOdd (ep : ℕ) (chi : ℤ → ℤ) : List (ℕ × ℤ) → ℤ := hasseGen (hilbertOdd ep chi)

def scaleSum (l : List (ℕ × ℤ)) : ℕ := (l.map Prod.fst).sum

def unitProd (l : List (ℕ × ℤ)) : ℤ := (l.map Prod.snd).prod

/-- The diagonal entries' total (valuation, unit) product. -/
def prodRep (l : List (ℕ × ℤ)) : ℕ × ℤ := (scaleSum l, unitProd l)

/-- Modelled from the spec: the 2-adic determinant class of a diagonalized
form, i.e. its determinant up to squares — the parity of the 2-valuation
together with the odd part mod 8. -/
def detClass2 (l : List (ℕ × ℤ)) : ℕ × ℤ := (scaleSum l % 2, unitProd l % 8)

/-- Modelled from the spec: the determinant class at an odd prime — the parity
of the p-valuation together with the Legendre symbol of the unit part. -/
def detClassOdd (chi : ℤ → ℤ) (l : List (ℕ × ℤ)) : ℕ × ℤ :=
  (scaleSum l % 2, (l.map fun d => chi d.2).prod)

/-- The diagonalization of a lifted block over `ℚ₂` up to squares:
`Unit(a, r) ↦ ⟨2^a r⟩`, `Hyperbolic(a) ↦ ⟨2^a, -2^a⟩`,
`OddPair(a) ↦ ⟨2^a, 3·2^a⟩`. -/
def jbRep : ℕ × JB → List (ℕ × ℤ)
  | (a, .unit r) => [(a, r)]
  | (a, .h) => [(a, 1), (a, -1)]
  | (a, .y) => [(a, 1), (a, 3)]

/-- The diagonalization of the orthogonal sum of the lifted blocks. -/
def repList (l : List (ℕ × JB)) : List (ℕ × ℤ) := l.flatMap jbRep

/-- The diagonalization of one reducer output entry re-tagged at scale `a`
(markers live at `a + 1`, residues at `a`). -/
def jbRepAt (a : ℕ) (b : JB) : List (ℕ × ℤ) :=
  if isMarkerB b then jbRep (a + 1, b) else jbRep (a, b)

/-- The diagonalization of a re-tagged reducer output list. -/
def transRep (a : ℕ) (l : List JB) : List (ℕ × ℤ) := l.flatMap (jbRepAt a)

/-- The diagonalization of one normal-form constituent at scale `a`: the
hyperbolic and anisotropic pairs `2^a·[[0,1],[1,0]]` and `2^a·[[2,1],[1,2]]`
diagonalize to `⟨2^{a+1}, -2^{a+1}⟩` and `⟨2^{a+1}, 3·2^{a+1}⟩` up to
squares. -/
def atomRep (a : ℕ) : Atom → List (ℕ × ℤ)
  | .unit u => [(a, u)]
  | .hyp => [(a + 1, 1), (a + 1, -1)]
  | .ypair => [(a + 1, 1), (a + 1, 3)]

/-- The diagonalization of the input form `F`, read off its external raw scale
decomposition. -/
def inputRep2 (scs : List (ℕ × List Atom)) : List (ℕ × ℤ) :=
  scs.flatMap fun sc => sc.2.flatMap (atomRep sc.1)

/-- The diagonalization of the input form at an odd prime: entry `t` of the
unimodular constituent at scale `a` is the diagonal entry `p^a·t`. -/
def inputRepOdd (scs : List (ℕ × List ℤ)) : List (ℕ × ℤ) :=
  scs.flatMap fun sc => sc.2.map fun t => (sc.1, t)

/-- The raw decomposition as matrices, as handed to `jordan_blocks_2`. -/
def scsMat (scs : List (ℕ × List Atom)) : List (ℕ × Mat) :=
  scs.map fun sc => (sc.1, toMatrix sc.2)

/-- Every rank-1 constituent of the normal form is odd (Sage's 2-adic local
normal form guarantee). -/
def OddAtoms (l : List Atom) : Prop := ∀ u : ℤ, Atom.unit u ∈ l → u % 2 = 1

def OddUnits (scs : List (ℕ × List Atom)) : Prop := ∀ sc ∈ scs, OddAtoms sc.2

def AllOdd (l : List (ℕ × ℤ)) : Prop := ∀ d ∈ l, d.2 % 2 = 1

/-- The three 2-adic Jordan invariants agree: same dimension, same determinant
class (valuation parity and odd part mod 8), same Hasse invariant. -/
def EquivInv (l l' : List (ℕ × ℤ)) : Prop :=
  l.length = l'.length ∧ scaleSum l % 2 = scaleSum l' % 2 ∧
    unitProd l % 8 = unitProd l' % 8 ∧ hasse2 l = hasse2 l'

def rankJB : JB → ℕ
  | .unit _ => 1
  | .h => 2
  | .y => 2

def ranksum (l : List (ℕ × JB)) : ℕ := (l.map fun x => rankJB x.2).sum

def resCount (l : List JB) : ℕ := (resVals l).length

/-- Total rank carried by a list of block labels: a residue counts 1, a marker
counts 2. -/
def rankL (l : List JB) : ℕ := (l.map rankJB).sum

def markCount (l : List JB) : ℕ := (l.filter isMarkerB).length

/-- The number of rank-1 `Unit` blocks at scale `a`. -/
def countUnitsAt (a : ℕ) (l : List (ℕ × JB)) : ℕ :=
  l.countP fun x => x.1 == a && !(isMarkerB x.2)

/-- Two diagonal entries with the same valuation parity and the same unit
mod 8 (they give the same 2-adic Hilbert symbols). -/
def entCong (x y : ℕ × ℤ) : Prop := x.1 % 2 = y.1 % 2 ∧ x.2 % 8 = y.2 % 8

/-- Two diagonal entries with the same valuation and the same Legendre symbol
(they give the same odd-p Hilbert symbols). -/
def chiRel (chi : ℤ → ℤ) (x y : ℕ × ℤ) : Prop := x.1 = y.1 ∧ chi x.2 = chi y.2

/-- A concrete Legendre-symbol oracle at `p = 3`, for witnesses. -/
def chi0 (t : ℤ) : ℤ := if t % 3 = 1 then 1 else if t % 3 = 2 then -1 else 0

/-! ## Basic algebra of the reducer's entry lists -/

theorem resVals_append (a b : List JB) : resVals (a ++ b) = resVals a ++ resVals b :=
  List.filterMap_append a b _

theorem resVals_units (us : List ℤ) : resVals (us.map JB.unit) = us := by
  induction us with
  | nil => rfl
  | cons x t ih => exact congrArg (x :: ·) ih

theorem filter_marker_units (us : List ℤ) : (us.map JB.unit).filter isMarkerB = [] := by
  induction us with
  | nil => rfl
  | cons x t ih => simp [isMarkerB, ih]

theorem resVals_filter_marker (l : List JB) : resVals (l.filter isMarkerB) = [] := by
  induction l with
  | nil => rfl
  | cons b t ih => cases b <;> simpa [isMarkerB, resVals] using ih

theorem rankL_append (a b : List JB) : rankL (a ++ b) = rankL a + rankL b := by
  simp [rankL]

theorem rankL_units (us : List ℤ) : rankL (us.map JB.unit) = us.length := by
  induction us with
  | nil => rfl
  | cons x t ih => simp [rankL, rankJB] at ih ⊢ ; omega

theorem rankL_split (l : List JB) : rankL l = resCount l + 2 * markCount l := by
  induction l with
  | nil => rfl
  | cons b t ih =>
    cases b <;>
      simp [rankL, rankJB, resCount, markCount, resVals, isMarkerB] at ih ⊢ <;> omega

theorem tripleRepl_shape (u1 u2 u3 : ℤ) :
    ∃ v mk, tripleRepl u1 u2 u3 = [JB.unit v, mk] ∧ isMarkerB mk = true := by
  unfold tripleRepl
  split
  · exact ⟨_, _, rfl, rfl⟩
  · exact ⟨_, _, rfl, rfl⟩

theorem rankL_tripleRepl (u1 u2 u3 : ℤ) : rankL (tripleRepl u1 u2 u3) = 3 := by
  obtain ⟨v, mk, he, hm⟩ := tripleRepl_shape u1 u2 u3
  cases mk <;> simp_all [rankL, rankJB, isMarkerB]

/-! ## Unfolding equations for the fuel-indexed reducer -/

theorem transF_zero (us : List ℤ) : transF 0 us = us.map JB.unit := rfl

theorem transF_nil (f : ℕ) : transF f [] = [] := by cases f <;> rfl

theorem transF_one (f : ℕ) (u1 : ℤ) : transF f [u1] = [JB.unit u1] := by cases f <;> rfl

theorem transF_two (f : ℕ) (u1 u2 : ℤ) :
    transF f [u1, u2] = [JB.unit u1, JB.unit u2] := by cases f <;> rfl

theorem transF_cons3 (f : ℕ) (u1 u2 u3 : ℤ) (rest : List ℤ) :
    transF (f + 1) (u1 :: u2 :: u3 :: rest) =
      if (resVals (transF f rest ++ tripleRepl u1 u2 u3)).length ≤ 2 then
        transF f rest ++ tripleRepl u1 u2 u3
      else
        transF f (resVals (transF f rest ++ tripleRepl u1 u2 u3)) ++
          (transF f rest ++ tripleRepl u1 u2 u3).filter isMarkerB := rfl

theorem rankL_transF (f : ℕ) (us : List ℤ) : rankL (transF f us) = us.length := by
  induction f generalizing us with
  | zero => exact rankL_units us
  | succ f ih =>
    match us with
    | [] => simp [transF_nil, rankL]
    | [u1] => simp [transF_one, rankL, rankJB]
    | [u1, u2] => simp [transF_two, rankL, rankJB]
    | u1 :: u2 :: u3 :: rest =>
      rw [transF_cons3]
      have hl : rankL (transF f rest ++ tripleRepl u1 u2 u3) = rest.length + 3 := by
        rw [rankL_append, ih, rankL_tripleRepl]
      split
      · simpa using hl
      · rw [rankL_append, ih]
        have hmk : rankL ((transF f rest ++ tripleRepl u1 u2 u3).filter isMarkerB) =
            2 * markCount (transF f rest ++ tripleRepl u1 u2 u3) := by
          generalize (transF f rest ++ tripleRepl u1 u2 u3) = l
          induction l with
          | nil => rfl
          | cons b t iht =>
            cases b <;> simp [rankL, rankJB, markCount, isMarkerB] at iht ⊢ <;> omega
        rw [hmk]
        have := rankL_split (transF f rest ++ tripleRepl u1 u2 u3)
        simp only [List.length_cons]
        unfold resCount at this
        omega

theorem odd_resVals_transF (f : ℕ) (us : List ℤ) (h : ∀ x ∈ us, x % 2 = 1) :
    ∀ r ∈ resVals (transF f us), r % 2 = 1 := by
  induction f generalizing us with
  | zero =>
    rw [transF_zero, resVals_units]
    exact h
  | succ f ih =>
    match us with
    | [] => simp [transF_nil, resVals]
    | [u1] =>
      rw [transF_one]
      simpa [resVals] using h u1 (by simp)
    | [u1, u2] =>
      rw [transF_two]
      intro r hr
      simp only [resVals, List.filterMap_cons, List.filterMap_nil] at hr
      simp only [List.mem_cons, List.not_mem_nil, or_false] at hr
      rcases hr with rfl | rfl
      · exact h r (by simp)
      · exact h r (by simp)
    | u1 :: u2 :: u3 :: rest =>
      have h1 : u1 % 2 = 1 := h u1 (by simp)
      have h2 : u2 % 2 = 1 := h u2 (by simp)
      have h3 : u3 % 2 = 1 := h u3 (by simp)
      have hrest : ∀ x ∈ rest, x % 2 = 1 := fun x hx => h x (by simp [hx])
      have hprod : (u1 * u2 * u3) % 2 = 1 := by
        have h12 : u1 * u2 % 2 = 1 := by
          rw [Int.mul_emod, h1, h2]
          decide
        rw [Int.mul_emod, h12, h3]
        decide
      have hrepl : ∀ r ∈ resVals (tripleRepl u1 u2 u3), r % 2 = 1 := by
        unfold tripleRepl
        split <;> intro r hr <;> simp [resVals] at hr <;> subst hr <;> omega
      have hl : ∀ r ∈ resVals (transF f rest ++ tripleRepl u1 u2 u3), r % 2 = 1 := by
        rw [resVals_append]
        intro r hr
        rcases List.mem_append.1 hr with hr | hr
        · exact ih rest hrest r hr
        · exact hrepl r hr
      rw [transF_cons3]
      split
      · exact hl
      · intro r hr
        rw [resVals_append, resVals_filter_marker, List.append_nil] at hr
        exact ih _ hl r hr

/-- The fuel `us.length` is always sufficient: larger fuel gives the same
value, and the number of surviving unit residues never exceeds 2. -/
theorem transF_stable_bound :
    ∀ n, ∀ us : List ℤ, us.length = n → ∀ f, n ≤ f →
      transF f us = transF n us ∧ (resVals (transF f us)).length ≤ 2 := by
  intro n
  induction n using Nat.strong_induction_on with
  | _ n IH =>
    intro us hlen f hf
    match us with
    | [] => simp [transF_nil, resVals]
    | [u1] => simp [transF_one, resVals]
    | [u1, u2] => simp [transF_two, resVals, List.filterMap]
    | u1 :: u2 :: u3 :: rest =>
      simp only [List.length_cons] at hlen
      obtain ⟨f, rfl⟩ : ∃ f', f = f' + 1 := ⟨f - 1, by omega⟩
      obtain ⟨n, rfl⟩ : ∃ n', n = n' + 1 := ⟨n - 1, by omega⟩
      have hrest_f : transF f rest = transF rest.length rest ∧
          (resVals (transF f rest)).length ≤ 2 :=
        IH rest.length (by omega) rest rfl f (by omega)
      have hrest_n : transF n rest = transF rest.length rest ∧
          (resVals (transF n rest)).length ≤ 2 :=
        IH rest.length (by omega) rest rfl n (by omega)
      have hsame : transF f rest = transF n rest := by rw [hrest_f.1, hrest_n.1]
      rw [transF_cons3, transF_cons3, hsame]
      set l := transF n rest ++ tripleRepl u1 u2 u3 with hldef
      obtain ⟨v, mk, he, hm⟩ := tripleRepl_shape u1 u2 u3
      have hrv : resVals l = resVals (transF n rest) ++ [v] := by
        rw [hldef, resVals_append, he]
        cases mk <;> simp_all [resVals, isMarkerB]
      have hrvlen : (resVals l).length ≤ 3 := by
        rw [hrv]
        have := hrest_n.2
        simp only [List.length_append, List.length_cons, List.length_nil]
        omega
      split
      · constructor
        · rfl
        · assumption
      · rename_i hgt
        push_neg at hgt
        have hrv3 : (resVals l).length = 3 := by omega
        have hrestpos : 0 < rest.length := by
          by_contra hc
          push_neg at hc
          interval_cases hr : rest.length
          have : rest = [] := List.length_eq_zero.1 hr
          subst this
          rw [hrv] at hrv3
          simp [transF_nil, resVals] at hrv3
        have hin_f : transF f (resVals l) = transF (resVals l).length (resVals l) ∧
            (resVals (transF f (resVals l))).length ≤ 2 :=
          IH (resVals l).length (by omega) (resVals l) rfl f (by omega)
        have hin_n : transF n (resVals l) = transF (resVals l).length (resVals l) ∧
            (resVals (transF n (resVals l))).length ≤ 2 :=
          IH (resVals l).length (by omega) (resVals l) rfl n (by omega)
        constructor
        · rw [hin_f.1, hin_n.1]
        · rw [resVals_append, resVals_filter_marker, List.append_nil]
          exact hin_f.2

theorem transF_eq_trans (f : ℕ) (us : List ℤ) (hf : us.length ≤ f) :
    transF f us = trans_jordan_dec_2 us :=
  (transF_stable_bound us.length us rfl f hf).1

theorem resCount_trans_le_two (us : List ℤ) :
    (resVals (trans_jordan_dec_2 us)).length ≤ 2 :=
  (transF_stable_bound us.length us rfl us.length le_rfl).2

/-! ## Claims C3, C7, C2, C10, C9 -/

/-- Claim C3: `does_2adically_rep_zero a b c` returns true iff there are
`x, y, z` in the square-residue set `{0, 1, 4}`, not all even, with
`a*x + b*y + c*z ≡ 0 (mod 8)`. -/
theorem oracle_contract (a b c : ℤ)
    (_ha : a ∈ ([1, 3, 5, 7] : List ℤ)) (_hb : b ∈ ([1, 3, 5, 7] : List ℤ))
    (_hc : c ∈ ([1, 3, 5, 7] : List ℤ)) :
    does_2adically_rep_zero a b c = true ↔
      ∃ x ∈ ([0, 1, 4] : List ℤ), ∃ y ∈ ([0, 1, 4] : List ℤ),
        ∃ z ∈ ([0, 1, 4] : List ℤ),
          ¬(x % 2 = 0 ∧ y % 2 = 0 ∧ z % 2 = 0) ∧
            (a * x + b * y + c * z) % 8 = 0 := by
  unfold does_2adically_rep_zero
  simp only [List.any_eq_true, Bool.and_eq_true, Bool.or_eq_true, beq_iff_eq]
  constructor
  · rintro ⟨x, hx, y, hy, z, hz, hodd, hsum⟩
    exact ⟨x, hx, y, hy, z, hz, by omega, hsum⟩
  · rintro ⟨x, hx, y, hy, z, hz, hne, hsum⟩
    exact ⟨x, hx, y, hy, z, hz, by omega, hsum⟩

/-- Witness for C3 at `(a, b, c) = (1, 3, 5)`. -/
theorem oracle_contract_witness :
    does_2adically_rep_zero 1 3 5 = true ↔
      ∃ x ∈ ([0, 1, 4] : List ℤ), ∃ y ∈ ([0, 1, 4] : List ℤ),
        ∃ z ∈ ([0, 1, 4] : List ℤ),
          ¬(x % 2 = 0 ∧ y % 2 = 0 ∧ z % 2 = 0) ∧
            ((1 : ℤ) * x + 3 * y + 5 * z) % 8 = 0 :=
  oracle_contract 1 3 5 (by decide) (by decide) (by decide)

/-- Claim C7: the reducer conserves rank — for any input list of residues
(odd or not, which subsumes the claim's odd lists), the number of residue
entries plus twice the number of marker entries in the output equals the input
length. -/
theorem reducer_rank_conservation (us : List ℤ) :
    resCount (trans_jordan_dec_2 us) + 2 * markCount (trans_jordan_dec_2 us) =
      us.length := by
  have h1 := rankL_split (trans_jordan_dec_2 us)
  have h2 : rankL (trans_jordan_dec_2 us) = us.length := rankL_transF us.length us
  omega

/-- Claim C2: on a list of odd residues of length ≥ 3 the reducer takes the
first three elements `(u1, u2, u3)`, puts `u = u1*u2*u3 mod 8`, and replaces
the triple by `[(-u) % 8, "h"]` when `representsZero2adically(u1,u2,u3)` holds
and by `[(3*u) % 8, "y"]` otherwise — the replacement is appended to the
recursive result on the tail, after which the `reReduce` tail of the source
(lines 50-56) runs. -/
theorem reducer_first_triple (us : List ℤ) (u1 u2 u3 : ℤ) (rest : List ℤ)
    (hshape : us = u1 :: u2 :: u3 :: rest)
    (_hodd : ∀ x ∈ us, x % 2 = 1) :
    trans_jordan_dec_2 us =
      reReduce (trans_jordan_dec_2 rest ++
        (if does_2adically_rep_zero u1 u2 u3 = true then
          [JB.unit ((-(u1 * u2 * u3 % 8)) % 8), JB.h]
        else
          [JB.unit (3 * (u1 * u2 * u3 % 8) % 8), JB.y])) := by
  subst hshape
  have hif : (if does_2adically_rep_zero u1 u2 u3 = true then
        [JB.unit ((-(u1 * u2 * u3 % 8)) % 8), JB.h]
      else [JB.unit (3 * (u1 * u2 * u3 % 8) % 8), JB.y]) = tripleRepl u1 u2 u3 := by
    have e1 : (-(u1 * u2 * u3 % 8)) % 8 = (-(u1 * u2 * u3)) % 8 := by
      generalize u1 * u2 * u3 = t
      omega
    have e2 : 3 * (u1 * u2 * u3 % 8) % 8 = 3 * (u1 * u2 * u3) % 8 := by
      generalize u1 * u2 * u3 = t
      omega
    rw [e1, e2]
    unfold tripleRepl
    simp
  rw [hif]
  have hlen : (u1 :: u2 :: u3 :: rest).length = rest.length + 2 + 1 := by simp
  conv_lhs => rw [trans_jordan_dec_2, hlen, transF_cons3,
    transF_eq_trans (rest.length + 2) rest (by omega)]
  unfold reReduce
  obtain ⟨v, mk, he, hm⟩ := tripleRepl_shape u1 u2 u3
  have hrv : resVals (trans_jordan_dec_2 rest ++ tripleRepl u1 u2 u3) =
      resVals (trans_jordan_dec_2 rest) ++ [v] := by
    rw [resVals_append, he]
    cases mk <;> simp_all [resVals, isMarkerB]
  by_cases hc : (resVals (trans_jordan_dec_2 rest ++ tripleRepl u1 u2 u3)).length ≤ 2
  · rw [if_pos hc, if_pos hc]
  · rw [if_neg hc, if_neg hc]
    push_neg at hc
    have hb := resCount_trans_le_two rest
    have h3 : (resVals (trans_jordan_dec_2 rest ++ tripleRepl u1 u2 u3)).length = 3 := by
      rw [hrv] at hc ⊢
      simp only [List.length_append, List.length_cons, List.length_nil] at hc ⊢
      omega
    have hne : rest ≠ [] := by
      rintro rfl
      rw [hrv] at h3
      simp [trans_jordan_dec_2, transF_nil, resVals] at h3
    have hpos : 0 < rest.length := List.length_pos.2 hne
    rw [transF_eq_trans (rest.length + 2) _ (by rw [h3]; omega)]

/-- Witness for C2 on the concrete odd list `[1, 1, 7]` (the isotropic triple
of the source's own docstring). -/
theorem reducer_first_triple_witness :
    trans_jordan_dec_2 [1, 1, 7] =
      reReduce (trans_jordan_dec_2 [] ++
        (if does_2adically_rep_zero 1 1 7 = true then
          [JB.unit ((-((1 : ℤ) * 1 * 7 % 8)) % 8), JB.h]
        else
          [JB.unit (3 * ((1 : ℤ) * 1 * 7 % 8) % 8), JB.y])) :=
  reducer_first_triple [1, 1, 7] 1 1 7 [] rfl (by decide)

/-- Claim C10: the lifter `_blocks_to_quad_form` fails on the empty block list
(Python's `reduce` with no initial value raises there, modelled as `none`) and
returns a Gram matrix for every non-empty block list. -/
theorem lifter_empty_fails :
    (∀ p : ℤ, blocks_to_quad_form [] p = none) ∧
      ∀ (blcs : List (ℕ × JB)) (p : ℤ), blcs ≠ [] →
        ∃ m, blocks_to_quad_form blcs p = some m := by
  constructor
  · intro p
    rfl
  · intro blcs p hne
    match blcs with
    | [] => exact absurd rfl hne
    | b :: bs => exact ⟨_, rfl⟩

/-- Witness for C10: a singleton block list lifts to a Gram matrix. -/
theorem lifter_empty_fails_witness :
    ∃ m, blocks_to_quad_form [(0, JB.unit 1)] 2 = some m :=
  lifter_empty_fails.2 [(0, JB.unit 1)] 2 (by decide)

/-- Counterexample to claim C9: called with `p = 9`, which is neither 2 nor an
odd prime, `siegel_series_polynomial`'s dispatch performs no validation and no
immediate `InvalidInput` — it computes and returns the odd-prime block list
`[(0, 1)]` for the decomposition `[(0, [1])]`. -/
theorem dispatch_no_validation_counterexample :
    ¬ Nat.Prime 9 ∧ (9 : ℕ) ≠ 2 ∧
      siegel_series_blocks 9 [] [(0, [1])] chi0 2 = Sum.inr [(0, 1)] := by
  refine ⟨by decide, by decide, ?_⟩
  rfl

/-- Claim C9 (amended): `siegel_series_polynomial` performs no input
validation at all — every `p ≠ 2` whatsoever (odd prime or not) is routed to
the odd-prime splitter and the block computation proceeds; any error can only
arise later inside the external oracles. -/
theorem dispatch_routes_all_non_two (p : ℕ) (hp : p ≠ 2)
    (dec2 : List (ℕ × Mat)) (decOdd : List (ℕ × List ℤ)) (chi : ℤ → ℤ) (u : ℤ) :
    siegel_series_blocks p dec2 decOdd chi u =
      Sum.inr (jordan_blocks_odd decOdd chi u) := by
  unfold siegel_series_blocks
  simp [hp]

/-- Witness for the amended C9 at the invalid prime `p = 9`. -/
theorem dispatch_routes_all_non_two_witness :
    siegel_series_blocks 9 [] [(0, [1])] chi0 2 =
      Sum.inr (jordan_blocks_odd [(0, [1])] chi0 2) :=
  dispatch_routes_all_non_two 9 (by decide) [] [(0, [1])] chi0 2

/-! ## Scale bound (C5) -/

theorem resCount_eq_countP (ts : List JB) :
    resCount ts = ts.countP fun b => !(isMarkerB b) := by
  induction ts with
  | nil => rfl
  | cons b t ih =>
    cases b <;> simp [resCount, resVals, isMarkerB, List.countP_cons] at ih ⊢ <;> omega

theorem countP_groupOut (a k : ℕ) (g : List (ℕ × JB)) :
    (groupOut (k, g)).countP (fun x => x.1 == a && !(isMarkerB x.2)) =
      if k = a then resCount (trans_jordan_dec_2 (unitValsOf g)) else 0 := by
  unfold groupOut
  rw [resCount_eq_countP, List.countP_map]
  generalize trans_jordan_dec_2 (unitValsOf g) = ts
  by_cases hka : k = a
  · subst hka
    rw [if_pos rfl]
    apply List.countP_congr
    intro b _
    cases b <;> simp [isMarkerB, Function.comp]
  · rw [if_neg hka]
    rw [List.countP_eq_zero]
    intro b _
    cases b <;> simp [isMarkerB, Function.comp, hka]

theorem countP_groups_zero (a : ℕ) (dg : List (ℕ × JB)) (ks : List ℕ)
    (hne : ∀ k ∈ ks, k ≠ a) :
    (ks.flatMap fun k => groupOut (k, dg.filter fun x => x.1 == k)).countP
      (fun x => x.1 == a && !(isMarkerB x.2)) = 0 := by
  induction ks with
  | nil => simp
  | cons k t ih =>
    rw [List.flatMap_cons, List.countP_append, countP_groupOut,
      if_neg (hne k (by simp)), ih fun k' hk' => hne k' (by simp [hk'])]

theorem countP_groups_le (a : ℕ) (dg : List (ℕ × JB)) (ks : List ℕ) (hnd : ks.Nodup) :
    (ks.flatMap fun k => groupOut (k, dg.filter fun x => x.1 == k)).countP
      (fun x => x.1 == a && !(isMarkerB x.2)) ≤ 2 := by
  induction ks with
  | nil => simp
  | cons k t ih =>
    rw [List.flatMap_cons, List.countP_append]
    obtain ⟨hk, hnd2⟩ := List.nodup_cons.1 hnd
    by_cases hka : k = a
    · subst hka
      rw [countP_groupOut, if_pos rfl,
        countP_groups_zero k dg t fun k' hk' => by rintro rfl; exact hk hk']
      have hle := resCount_trans_le_two (unitValsOf (dg.filter fun x => x.1 == k))
      unfold resCount
      omega
    · rw [countP_groupOut, if_neg hka]
      simpa using ih hnd2

/-- Claim C5: in the output of `jordan_blocks_2`, at most 2 `Unit` blocks carry
any given scale `a`; equivalently, the reducer's output never holds more than 2
non-marker residue entries. -/
theorem two_adic_scale_bound (scs : List (ℕ × Mat)) (a : ℕ) :
    countUnitsAt a (jordan_blocks_2 scs) ≤ 2 ∧
      ∀ us : List ℤ, resCount (trans_jordan_dec_2 us) ≤ 2 := by
  refine ⟨?_, resCount_trans_le_two⟩
  unfold countUnitsAt jordan_blocks_2
  rw [(List.perm_insertionSort descRel (res2 scs)).countP_eq]
  unfold res2
  rw [List.countP_append]
  have h0 : ((peelAll scs).filter (fun x => isMarkerB x.2)).countP
      (fun x => x.1 == a && !(isMarkerB x.2)) = 0 := by
    rw [List.countP_eq_zero]
    intro x hx
    have hmk := (List.mem_filter.1 hx).2
    simp [hmk]
  have h1 : (((listGroupBy ((peelAll scs).filter fun x => !(isMarkerB x.2))).flatMap
      groupOut)).countP (fun x => x.1 == a && !(isMarkerB x.2)) ≤ 2 := by
    unfold listGroupBy
    rw [List.flatMap_map]
    exact countP_groups_le a _ _ (List.nodup_dedup _)
  omega

/-! ## Sortedness (C8) -/

/-- Claim C8: `jordan_blocks_odd` returns its blocks sorted by non-increasing
scale whenever the external decomposition primitive lists the scale classes in
ascending order, and `jordan_blocks_2` always returns a list sorted by
non-increasing scale. -/
theorem blocklists_sorted_desc :
    (∀ (scs : List (ℕ × List ℤ)) (chi : ℤ → ℤ) (u : ℤ),
      (scs.map Prod.fst).Pairwise (· ≤ ·) →
        List.Sorted descRelOdd (jordan_blocks_odd scs chi u)) ∧
    ∀ scs : List (ℕ × Mat), List.Sorted descRel (jordan_blocks_2 scs) := by
  constructor
  · intro scs chi u hasc
    unfold jordan_blocks_odd List.Sorted
    rw [List.pairwise_reverse, List.pairwise_flatMap]
    rw [List.pairwise_map] at hasc
    constructor
    · intro sc hsc
      rw [List.pairwise_map]
      have : ∀ x ∈ sc.2, ∀ y ∈ sc.2, flip descRelOdd
          (if chi x = 1 then (sc.1, 1) else (sc.1, u))
          (if chi y = 1 then (sc.1, 1) else (sc.1, u)) := by
        intro x _ y _
        by_cases hx : chi x = 1 <;> by_cases hy : chi y = 1 <;>
          simp [hx, hy, flip, descRelOdd]
      exact List.pairwise_of_forall_mem_list this
    · refine hasc.imp ?_
      intro sc1 sc2 h12 x hx y hy
      obtain ⟨t1, _, hxe⟩ := List.mem_map.1 hx
      obtain ⟨t2, _, hye⟩ := List.mem_map.1 hy
      have hx1 : x.1 = sc1.1 := by
        rw [← hxe]
        by_cases hc : chi t1 = 1 <;> simp [hc]
      have hy1 : y.1 = sc2.1 := by
        rw [← hye]
        by_cases hc : chi t2 = 1 <;> simp [hc]
      show descRelOdd y x
      unfold descRelOdd
      rw [hx1, hy1]
      exact h12
  · intro scs
    exact List.sorted_insertionSort descRel (res2 scs)

/-- Witness for C8: a two-class ascending decomposition at an odd prime, and a
one-class decomposition at 2. -/
theorem blocklists_sorted_desc_witness :
    List.Sorted descRelOdd (jordan_blocks_odd [(0, [1]), (1, [2])] chi0 2) ∧
      List.Sorted descRel (jordan_blocks_2 [(0, [[1]])]) :=
  ⟨blocklists_sorted_desc.1 [(0, [1]), (1, [2])] chi0 2 (by decide),
   blocklists_sorted_desc.2 [(0, [[1]])]⟩

/-! ## The peeling loop on normal-form matrices (C4) -/

theorem isZeroMat_toMatrix_unit (u : ℤ) (hu : u ≠ 0) (rest : List Atom) :
    isZeroMat (toMatrix (Atom.unit u :: rest)) = false := by
  have h0 : (u == 0) = false := beq_eq_false_iff_ne.2 hu
  simp [isZeroMat, toMatrix, h0]

theorem isZeroMat_toMatrix_hyp (rest : List Atom) :
    isZeroMat (toMatrix (Atom.hyp :: rest)) = false := by
  simp [isZeroMat, toMatrix]

theorem isZeroMat_toMatrix_ypair (rest : List Atom) :
    isZeroMat (toMatrix (Atom.ypair :: rest)) = false := by
  simp [isZeroMat, toMatrix]

theorem entry00_toMatrix_unit (u : ℤ) (rest : List Atom) :
    entry00 (toMatrix (Atom.unit u :: rest)) = u := rfl

theorem entry00_toMatrix_hyp (rest : List Atom) :
    entry00 (toMatrix (Atom.hyp :: rest)) = 0 := rfl

theorem entry00_toMatrix_ypair (rest : List Atom) :
    entry00 (toMatrix (Atom.ypair :: rest)) = 2 := rfl

theorem submat_one_unit (u : ℤ) (rest : List Atom) :
    submat 1 (toMatrix (Atom.unit u :: rest)) = toMatrix rest := by
  show ((toMatrix rest).map (0 :: ·)).map (List.drop 1) = toMatrix rest
  rw [List.map_map]
  have hid : (List.drop 1 ∘ (0 :: ·) : List ℤ → List ℤ) = id := rfl
  rw [hid, List.map_id]

theorem submat_two_hyp (rest : List Atom) :
    submat 2 (toMatrix (Atom.hyp :: rest)) = toMatrix rest := by
  show ((toMatrix rest).map fun r => 0 :: 0 :: r).map (List.drop 2) = toMatrix rest
  rw [List.map_map]
  have hid : (List.drop 2 ∘ (fun r => 0 :: 0 :: r) : List ℤ → List ℤ) = id := rfl
  rw [hid, List.map_id]

theorem submat_two_ypair (rest : List Atom) :
    submat 2 (toMatrix (Atom.ypair :: rest)) = toMatrix rest := by
  show ((toMatrix rest).map fun r => 0 :: 0 :: r).map (List.drop 2) = toMatrix rest
  rw [List.map_map]
  have hid : (List.drop 2 ∘ (fun r => 0 :: 0 :: r) : List ℤ → List ℤ) = id := rfl
  rw [hid, List.map_id]

/-- On a normal-form matrix with odd units, the peeling loop recovers exactly
the constituents, tagging pairs with `scale + 1`. -/
theorem peel_toMatrix (a : ℕ) (atoms : List Atom) (hodd : OddAtoms atoms) :
    peel a (toMatrix atoms) = atoms.map (emitAtom a) := by
  induction atoms with
  | nil =>
    rw [peel]
    simp [isZeroMat, toMatrix]
  | cons t rest ih =>
    have hodd2 : OddAtoms rest := fun u hu => hodd u (List.mem_cons_of_mem _ hu)
    cases t with
    | unit u =>
      have hu : u % 2 = 1 := hodd u (by simp)
      have hne : u ≠ 0 := by omega
      rw [peel, dif_neg (by rw [isZeroMat_toMatrix_unit u hne rest]; simp),
        entry00_toMatrix_unit, if_pos hu, submat_one_unit, ih hodd2]
      rfl
    | hyp =>
      rw [peel, dif_neg (by rw [isZeroMat_toMatrix_hyp rest]; simp),
        entry00_toMatrix_hyp, if_neg (by decide), if_pos rfl, submat_two_hyp, ih hodd2]
      rfl
    | ypair =>
      rw [peel, dif_neg (by rw [isZeroMat_toMatrix_ypair rest]; simp),
        entry00_toMatrix_ypair, if_neg (by decide), if_neg (by decide),
        submat_two_ypair, ih hodd2]
      rfl

theorem toMatrix_length (atoms : List Atom) :
    (toMatrix atoms).length = atomsSize atoms := by
  induction atoms with
  | nil => rfl
  | cons t rest ih =>
    cases t <;> simp [toMatrix, atomsSize, atomRank] at ih ⊢ <;> omega

theorem ranksum_emit (a : ℕ) (atoms : List Atom) :
    ranksum (atoms.map (emitAtom a)) = atomsSize atoms := by
  induction atoms with
  | nil => rfl
  | cons t rest ih =>
    cases t <;> simp [ranksum, emitAtom, rankJB, atomsSize, atomRank] at ih ⊢ <;> omega

/-- Claim C4: the 2-adic peeling loop follows exactly the stated case split on
the top-left entry `m00` (odd: a unit at scale `a`, shrink by 1; zero: a
hyperbolic marker at `a + 1`, shrink by 2; even nonzero: an odd-pair marker at
`a + 1`, shrink by 2), it stops exactly when the matrix has become zero, and on
the normal-form matrices the external primitive supplies (with odd units) it
exhausts the matrix: the consumed ranks sum to the full row count. -/
theorem peel_case_split_and_exhaustion :
    (∀ (a : ℕ) (m : Mat), isZeroMat m = false →
      peel a m =
        if entry00 m % 2 = 1 then
          (a, JB.unit (entry00 m % 8)) :: peel a (submat 1 m)
        else if entry00 m = 0 then (a + 1, JB.h) :: peel a (submat 2 m)
        else (a + 1, JB.y) :: peel a (submat 2 m)) ∧
    (∀ (a : ℕ) (m : Mat), isZeroMat m = true → peel a m = []) ∧
    ∀ (a : ℕ) (atoms : List Atom), OddAtoms atoms →
      ranksum (peel a (toMatrix atoms)) = (toMatrix atoms).length := by
  refine ⟨?_, ?_, ?_⟩
  · intro a m hm
    rw [peel, dif_neg (by rw [hm]; simp)]
  · intro a m hm
    rw [peel, dif_pos hm]
  · intro a atoms hodd
    rw [peel_toMatrix a atoms hodd, toMatrix_length, ranksum_emit]

/-- Witness for C4: the one-step equation on `[[3]]`, termination on the zero
matrix, and exhaustion on the normal form `⟨3⟩ ⊕ H`. -/
theorem peel_case_split_and_exhaustion_witness :
    (peel 0 [[3]] =
      if entry00 [[3]] % 2 = 1 then
        (0, JB.unit (entry00 [[3]] % 8)) :: peel 0 (submat 1 [[3]])
      else if entry00 [[3]] = 0 then (0 + 1, JB.h) :: peel 0 (submat 2 [[3]])
      else (0 + 1, JB.y) :: peel 0 (submat 2 [[3]])) ∧
    peel 0 [[0, 0], [0, 0]] = [] ∧
    ranksum (peel 0 (toMatrix [Atom.unit 3, Atom.hyp])) =
      (toMatrix [Atom.unit 3, Atom.hyp]).length :=
  ⟨peel_case_split_and_exhaustion.1 0 [[3]] (by decide),
   peel_case_split_and_exhaustion.2.1 0 [[0, 0], [0, 0]] (by decide),
   peel_case_split_and_exhaustion.2.2 0 [Atom.unit 3, Atom.hyp] (by
    intro u hu
    rcases List.mem_cons.1 hu with h1 | h1
    · cases h1
      decide
    · simp at h1)⟩

/-! ## Rank preservation (C6) -/

theorem ranksum_append (a b : List (ℕ × JB)) :
    ranksum (a ++ b) = ranksum a + ranksum b := by
  simp [ranksum]

theorem ranksum_perm {l l' : List (ℕ × JB)} (h : List.Perm l l') :
    ranksum l = ranksum l' :=
  (h.map _).sum_eq

theorem ranksum_retag (k : ℕ) (ts : List JB) :
    ranksum (ts.map fun b => if isMarkerB b then (k + 1, b) else (k, b)) = rankL ts := by
  induction ts with
  | nil => rfl
  | cons b t ih =>
    cases b <;> simp [ranksum, rankL, isMarkerB, rankJB] at ih ⊢ <;> omega

theorem ranksum_groupOut (g : ℕ × List (ℕ × JB)) :
    ranksum (groupOut g) = (unitValsOf g.2).length := by
  obtain ⟨k, gl⟩ := g
  show ranksum ((trans_jordan_dec_2 (unitValsOf gl)).map fun b =>
    if isMarkerB b then (k + 1, b) else (k, b)) = _
  rw [ranksum_retag]
  exact rankL_transF _ _

theorem unitValsOf_length (g : List (ℕ × JB)) (hg : ∀ x ∈ g, isMarkerB x.2 = false) :
    (unitValsOf g).length = g.length := by
  induction g with
  | nil => rfl
  | cons x t ih =>
    have hx := hg x (by simp)
    have ht := ih fun y hy => hg y (by simp [hy])
    cases hxb : x.2 with
    | unit r =>
      obtain ⟨x1, x2⟩ := x
      simp only at hxb
      subst hxb
      simp only [unitValsOf, List.filterMap_cons] at ht ⊢
      simp [ht]
    | h => rw [hxb] at hx; simp [isMarkerB] at hx
    | y => rw [hxb] at hx; simp [isMarkerB] at hx

theorem ranksum_units_only (l : List (ℕ × JB)) (hl : ∀ x ∈ l, isMarkerB x.2 = false) :
    ranksum l = l.length := by
  induction l with
  | nil => rfl
  | cons x t ih =>
    have hx := hl x (by simp)
    have ht := ih fun y hy => hl y (by simp [hy])
    have hr : rankJB x.2 = 1 := by
      cases hxb : x.2 with
      | unit r => simp [rankJB]
      | h => rw [hxb] at hx; simp [isMarkerB] at hx
      | y => rw [hxb] at hx; simp [isMarkerB] at hx
    simp [ranksum, hr] at ht ⊢
    omega

theorem ranksum_flatMap {α : Type} (f : α → List (ℕ × JB)) (l : List α) :
    ranksum (l.flatMap f) = (l.map fun x => ranksum (f x)).sum := by
  induction l with
  | nil => rfl
  | cons x t ih => rw [List.flatMap_cons, ranksum_append, List.map_cons, List.sum_cons, ih]

theorem flatMap_congr_mem {α β : Type} (l : List α) (f g : α → List β)
    (h : ∀ a ∈ l, f a = g a) : l.flatMap f = l.flatMap g := by
  induction l with
  | nil => rfl
  | cons x t ih =>
    rw [List.flatMap_cons, List.flatMap_cons, h x (by simp),
      ih fun a ha => h a (by simp [ha])]

theorem flatMap_filter_perm (l : List (ℕ × JB)) :
    ∀ ks : List ℕ, ks.Nodup → (∀ x ∈ l, x.1 ∈ ks) →
      List.Perm (ks.flatMap fun k => l.filter fun x => x.1 == k) l := by
  intro ks
  induction ks generalizing l with
  | nil =>
    intro _ hcov
    cases l with
    | nil => simp
    | cons x t => exact absurd (hcov x (by simp)) (by simp)
  | cons k t ih =>
    intro hnd hcov
    rw [List.flatMap_cons]
    obtain ⟨hk, hnd2⟩ := List.nodup_cons.1 hnd
    have hsub : ∀ k' ∈ t, (l.filter fun x => x.1 == k') =
        ((l.filter fun x => !(x.1 == k)).filter fun x => x.1 == k') := by
      intro k' hk'
      rw [List.filter_filter]
      apply List.filter_congr
      intro x _
      by_cases hx : x.1 = k'
      · have hkk : k' ≠ k := by
          rintro rfl
          exact hk hk'
        have hxk : x.1 ≠ k := by
          rw [hx]
          exact hkk
        simp [hx, hxk, hkk]
      · simp [hx]
    rw [flatMap_congr_mem t _ _ hsub]
    have hcov2 : ∀ x ∈ l.filter fun x => !(x.1 == k), x.1 ∈ t := by
      intro x hx
      obtain ⟨hxl, hxk⟩ := List.mem_filter.1 hx
      simp only [Bool.not_eq_true', beq_eq_false_iff_ne, ne_eq] at hxk
      rcases List.mem_cons.1 (hcov x hxl) with h1 | h1
      · exact absurd h1 hxk
      · exact h1
    exact (List.Perm.append_left _ (ih _ hnd2 hcov2)).trans (List.filter_append_perm _ l)

theorem groups_flatten_perm (l : List (ℕ × JB)) :
    List.Perm ((listGroupBy l).flatMap fun g => g.2) l := by
  unfold listGroupBy
  rw [List.flatMap_map]
  exact flatMap_filter_perm l _ (List.nodup_dedup _)
    fun x hx => List.mem_dedup.2 (List.mem_map_of_mem _ hx)

theorem mem_group_no_marker (l : List (ℕ × JB))
    (hl : ∀ x ∈ l, isMarkerB x.2 = false) :
    ∀ g ∈ listGroupBy l, ∀ x ∈ g.2, isMarkerB x.2 = false := by
  intro g hg x hx
  unfold listGroupBy at hg
  obtain ⟨k, _, rfl⟩ := List.mem_map.1 hg
  exact hl x (List.mem_filter.1 hx).1

/-- The total rank the regrouped-and-reduced part carries equals the number of
unit entries fed into it. -/
theorem ranksum_groups (l : List (ℕ × JB)) (hl : ∀ x ∈ l, isMarkerB x.2 = false) :
    ranksum ((listGroupBy l).flatMap groupOut) = l.length := by
  rw [ranksum_flatMap]
  have h1 : ((listGroupBy l).map fun g => ranksum (groupOut g)) =
      (listGroupBy l).map fun g => g.2.length := by
    apply List.map_congr_left
    intro g hg
    rw [ranksum_groupOut, unitValsOf_length g.2 (mem_group_no_marker l hl g hg)]
  rw [h1]
  have h2 : ((listGroupBy l).flatMap fun g => g.2).length = l.length :=
    (groups_flatten_perm l).length_eq
  rw [List.length_flatMap] at h2
  exact h2

/-- Claim C6: rank preservation for both splitters.  For `p = 2` the setting
is the normal-form decomposition with odd units; for odd `p` every emitted
block is a rank-1 unit, so the sum of ranks is the output length.  In both
cases the total equals the rank of `F`, i.e. the total row count of the
decomposition's Gram matrices (for odd `p`: the total number of diagonal
entries). -/
theorem rank_preservation :
    (∀ scs : List (ℕ × List Atom), OddUnits scs →
      ranksum (jordan_blocks_2 (scsMat scs)) =
        ((scsMat scs).map fun sc => sc.2.length).sum) ∧
    ∀ (scs : List (ℕ × List ℤ)) (chi : ℤ → ℤ) (u : ℤ),
      (jordan_blocks_odd scs chi u).length = (scs.map fun sc => sc.2.length).sum := by
  constructor
  · intro scs hodd
    unfold jordan_blocks_2
    rw [ranksum_perm (List.perm_insertionSort descRel (res2 (scsMat scs)))]
    unfold res2
    rw [ranksum_append]
    have hmk : ∀ x ∈ (peelAll (scsMat scs)).filter fun x => !(isMarkerB x.2),
        isMarkerB x.2 = false := by
      intro x hx
      have := (List.mem_filter.1 hx).2
      simpa using this
    rw [ranksum_groups _ hmk]
    have hlen : ((peelAll (scsMat scs)).filter fun x => !(isMarkerB x.2)).length =
        ranksum ((peelAll (scsMat scs)).filter fun x => !(isMarkerB x.2)) :=
      (ranksum_units_only _ hmk).symm
    rw [hlen, ← ranksum_append,
      ranksum_perm (List.filter_append_perm (fun x => isMarkerB x.2) (peelAll (scsMat scs)))]
    unfold peelAll scsMat
    rw [List.flatMap_map, ranksum_flatMap, List.map_map]
    congr 1
    apply List.map_congr_left
    intro sc hsc
    show ranksum (peel sc.1 (toMatrix sc.2)) = (toMatrix sc.2).length
    rw [peel_toMatrix sc.1 sc.2 (hodd sc hsc), toMatrix_length, ranksum_emit]
  · intro scs chi u
    unfold jordan_blocks_odd
    rw [List.length_reverse, List.length_flatMap]
    congr 1
    apply List.map_congr_left
    intro sc _
    exact List.length_map _ _

/-- Witness for C6: the rank-4 identity form `diag(1,1,1,1)` at `p = 2` (the
spec's end-to-end scenario) and `diag(1,1)` at an odd prime. -/
theorem rank_preservation_witness :
    ranksum (jordan_blocks_2 (scsMat
        [(0, [Atom.unit 1, Atom.unit 1, Atom.unit 1, Atom.unit 1])])) =
      ((scsMat [(0, [Atom.unit 1, Atom.unit 1, Atom.unit 1, Atom.unit 1])]).map
        fun sc => sc.2.length).sum ∧
    (jordan_blocks_odd [(0, [1, 1])] chi0 2).length =
      ([(0, [1, 1])].map fun sc => sc.2.length).sum :=
  ⟨rank_preservation.1 [(0, [Atom.unit 1, Atom.unit 1, Atom.unit 1, Atom.unit 1])] (by
    intro sc hsc
    simp only [List.mem_singleton] at hsc
    subst hsc
    intro u hu
    simp only [List.mem_cons, List.not_mem_nil, or_false, Atom.unit.injEq] at hu
    rcases hu with rfl | rfl | rfl | rfl <;> decide),
   rank_preservation.2 [(0, [1, 1])] chi0 2⟩

/-! ## Hilbert-symbol algebra (towards C1) -/

theorem hsgn_add (m n : ℕ) : hsgn (m + n) = hsgn m * hsgn n := by
  unfold hsgn
  by_cases hm : m % 2 = 0 <;> by_cases hn : n % 2 = 0 <;>
    rcases Nat.eq_zero_or_pos ((m + n) % 2) with hmn | hmn <;>
      simp_all <;> omega

theorem hsgn_congr (m n : ℕ) (h : m % 2 = n % 2) : hsgn m = hsgn n := by
  unfold hsgn
  rw [h]

theorem eps_congr (u v : ℤ) (h : u % 8 = v % 8) : eps u = eps v := by
  unfold eps
  rw [h]

theorem omg_congr (u v : ℤ) (h : u % 8 = v % 8) : omg u = omg v := by
  unfold omg
  rw [h]

theorem eps01 (u : ℤ) : eps u = 0 ∨ eps u = 1 := by
  unfold eps
  split <;> simp

theorem omg01 (u : ℤ) : omg u = 0 ∨ omg u = 1 := by
  unfold omg
  split <;> simp

theorem odd_emod8 (u : ℤ) (h : u % 2 = 1) :
    u % 8 = 1 ∨ u % 8 = 3 ∨ u % 8 = 5 ∨ u % 8 = 7 := by omega

theorem eps_mul (u v : ℤ) (hu : u % 2 = 1) (hv : v % 2 = 1) :
    eps (u * v) = (eps u + eps v) % 2 := by
  have h1 : eps (u * v) = eps (u % 8 * (v % 8)) := eps_congr _ _ (by rw [Int.mul_emod])
  have h2 : eps u = eps (u % 8) := eps_congr _ _ (by omega)
  have h3 : eps v = eps (v % 8) := eps_congr _ _ (by omega)
  rw [h1, h2, h3]
  rcases odd_emod8 u hu with h | h | h | h <;> rcases odd_emod8 v hv with g | g | g | g <;>
    rw [h, g] <;> decide

theorem omg_mul (u v : ℤ) (hu : u % 2 = 1) (hv : v % 2 = 1) :
    omg (u * v) = (omg u + omg v) % 2 := by
  have h1 : omg (u * v) = omg (u % 8 * (v % 8)) := omg_congr _ _ (by rw [Int.mul_emod])
  have h2 : omg u = omg (u % 8) := omg_congr _ _ (by omega)
  have h3 : omg v = omg (v % 8) := omg_congr _ _ (by omega)
  rw [h1, h2, h3]
  rcases odd_emod8 u hu with h | h | h | h <;> rcases odd_emod8 v hv with g | g | g | g <;>
    rw [h, g] <;> decide

theorem hilbert2_symm (d e : ℕ × ℤ) : hilbert2 d e = hilbert2 e d := by
  unfold hilbert2
  apply hsgn_congr
  ring_nf

theorem hilbert2_congr (d d' e e' : ℕ × ℤ) (hd1 : d.1 % 2 = d'.1 % 2)
    (hd2 : d.2 % 8 = d'.2 % 8) (he1 : e.1 % 2 = e'.1 % 2) (he2 : e.2 % 8 = e'.2 % 8) :
    hilbert2 d e = hilbert2 d' e' := by
  unfold hilbert2
  rw [eps_congr _ _ hd2, eps_congr _ _ he2, omg_congr _ _ hd2, omg_congr _ _ he2, hd1, he1]

theorem hilbert2_one_right (d : ℕ × ℤ) : hilbert2 d (0, 1) = 1 := by
  have he : eps 1 = 0 := by decide
  have ho : omg 1 = 0 := by decide
  unfold hilbert2
  simp [he, ho, hsgn]

theorem hilbert2_one_left (e : ℕ × ℤ) : hilbert2 (0, 1) e = 1 := by
  rw [hilbert2_symm]
  exact hilbert2_one_right e

theorem hilbert2_mul_right (d e f : ℕ × ℤ) (he : e.2 % 2 = 1) (hf : f.2 % 2 = 1) :
    hilbert2 d (e.1 + f.1, e.2 * f.2) = hilbert2 d e * hilbert2 d f := by
  unfold hilbert2
  rw [← hsgn_add]
  apply hsgn_congr
  show (eps d.2 * eps (e.2 * f.2) + d.1 % 2 * omg (e.2 * f.2) +
      (e.1 + f.1) % 2 * omg d.2) % 2 = _
  rw [eps_mul _ _ he hf, omg_mul _ _ he hf]
  have hd : d.1 % 2 = 0 ∨ d.1 % 2 = 1 := by omega
  rcases eps01 d.2 with h1 | h1 <;> rcases omg01 d.2 with h2 | h2 <;>
    rcases hd with h3 | h3 <;> rw [h1, h2, h3] <;> omega

theorem scaleSum_cons (x : ℕ × ℤ) (l : List (ℕ × ℤ)) :
    scaleSum (x :: l) = x.1 + scaleSum l := by
  simp [scaleSum]

theorem unitProd_cons (x : ℕ × ℤ) (l : List (ℕ × ℤ)) :
    unitProd (x :: l) = x.2 * unitProd l := by
  simp [unitProd]

theorem scaleSum_append (a b : List (ℕ × ℤ)) :
    scaleSum (a ++ b) = scaleSum a + scaleSum b := by
  simp [scaleSum]

theorem unitProd_append (a b : List (ℕ × ℤ)) :
    unitProd (a ++ b) = unitProd a * unitProd b := by
  simp [unitProd]

theorem unitProd_odd (l : List (ℕ × ℤ)) (h : AllOdd l) : unitProd l % 2 = 1 := by
  induction l with
  | nil => rfl
  | cons x t ih =>
    have hx := h x (by simp)
    have ht := ih fun y hy => h y (by simp [hy])
    rw [unitProd_cons, Int.mul_emod, hx, ht]
    decide

theorem hilbert2_prodRep (d : ℕ × ℤ) (l : List (ℕ × ℤ)) (hl : AllOdd l) :
    (l.map (hilbert2 d)).prod = hilbert2 d (prodRep l) := by
  induction l with
  | nil => exact (hilbert2_one_right d).symm
  | cons x t ih =>
    have hx := hl x (by simp)
    have ht : AllOdd t := fun y hy => hl y (by simp [hy])
    rw [List.map_cons, List.prod_cons, ih ht]
    have key : hilbert2 d (prodRep (x :: t)) = hilbert2 d x * hilbert2 d (prodRep t) := by
      have hshape : prodRep (x :: t) = (x.1 + (prodRep t).1, x.2 * (prodRep t).2) := by
        simp [prodRep, scaleSum_cons, unitProd_cons]
      rw [hshape]
      exact hilbert2_mul_right d x (prodRep t) hx (unitProd_odd t ht)
    rw [key]

/-! ## Hasse-invariant structure lemmas -/

theorem hasseGen_nil (hb : ℕ × ℤ → ℕ × ℤ → ℤ) : hasseGen hb [] = 1 := rfl

theorem hasseGen_cons (hb : ℕ × ℤ → ℕ × ℤ → ℤ) (d : ℕ × ℤ) (l : List (ℕ × ℤ)) :
    hasseGen hb (d :: l) = hb d d * (l.map (hb d)).prod * hasseGen hb l := rfl

/-- O'Meara's Hasse product is invariant under permutation of the diagonal, for
any symmetric symbol. -/
theorem hasseGen_perm (hb : ℕ × ℤ → ℕ × ℤ → ℤ) (hsymm : ∀ d e, hb d e = hb e d)
    {l l' : List (ℕ × ℤ)} (h : List.Perm l l') : hasseGen hb l = hasseGen hb l' := by
  induction h with
  | nil => rfl
  | cons x hp ih =>
    rw [hasseGen_cons, hasseGen_cons, ih, (hp.map (hb x)).prod_eq]
  | swap x y l =>
    rw [hasseGen_cons, hasseGen_cons, hasseGen_cons, hasseGen_cons,
      List.map_cons, List.map_cons, List.prod_cons, List.prod_cons, hsymm x y]
    ring
  | trans hp hq ih1 ih2 => rw [ih1, ih2]

theorem hasse2_perm {l l' : List (ℕ × ℤ)} (h : List.Perm l l') :
    hasse2 l = hasse2 l' :=
  hasseGen_perm hilbert2 hilbert2_symm h

theorem hasse2_append (l1 l2 : List (ℕ × ℤ)) (h1 : AllOdd l1) (h2 : AllOdd l2) :
    hasse2 (l1 ++ l2) = hasse2 l1 * hasse2 l2 * hilbert2 (prodRep l1) (prodRep l2) := by
  induction l1 with
  | nil =>
    show hasse2 l2 = 1 * hasse2 l2 * hilbert2 (prodRep []) (prodRep l2)
    have hp : prodRep ([] : List (ℕ × ℤ)) = (0, 1) := rfl
    rw [hp, hilbert2_one_left]
    ring
  | cons d t ih =>
    have hd := h1 d (by simp)
    have ht : AllOdd t := fun y hy => h1 y (by simp [hy])
    have iht := ih ht
    show hasse2 (d :: (t ++ l2)) = hasse2 (d :: t) * hasse2 l2 * _
    rw [show hasse2 (d :: (t ++ l2)) =
        hilbert2 d d * ((t ++ l2).map (hilbert2 d)).prod * hasse2 (t ++ l2) from rfl,
      show hasse2 (d :: t) = hilbert2 d d * (t.map (hilbert2 d)).prod * hasse2 t from rfl,
      List.map_append, List.prod_append, iht, hilbert2_prodRep d l2 h2]
    have hsplit : hilbert2 (prodRep (d :: t)) (prodRep l2) =
        hilbert2 d (prodRep l2) * hilbert2 (prodRep t) (prodRep l2) := by
      have hshape : prodRep (d :: t) = (d.1 + (prodRep t).1, d.2 * (prodRep t).2) := by
        simp [prodRep, scaleSum_cons, unitProd_cons]
      rw [hshape, hilbert2_symm,
        hilbert2_mul_right (prodRep l2) d (prodRep t) hd (unitProd_odd t ht),
        hilbert2_symm (prodRep l2) d, hilbert2_symm (prodRep l2) (prodRep t)]
    rw [hsplit]
    ring

/-! ## Entrywise congruence and the equivalence-invariant bundle -/

theorem prod_map_congr_hilbert (d d' : ℕ × ℤ) (hd : entCong d d')
    {t t' : List (ℕ × ℤ)} (h : List.Forall₂ entCong t t') :
    (t.map (hilbert2 d)).prod = (t'.map (hilbert2 d')).prod := by
  induction h with
  | nil => rfl
  | cons hx hrest ih =>
    rw [List.map_cons, List.map_cons, List.prod_cons, List.prod_cons, ih,
      hilbert2_congr _ _ _ _ hd.1 hd.2 hx.1 hx.2]

theorem hasse2_congr {l l' : List (ℕ × ℤ)} (h : List.Forall₂ entCong l l') :
    hasse2 l = hasse2 l' := by
  induction h with
  | nil => rfl
  | cons hx hrest ih =>
    rename_i x y t t'
    show hasse2 (x :: t) = hasse2 (y :: t')
    rw [show hasse2 (x :: t) = hilbert2 x x * (t.map (hilbert2 x)).prod * hasse2 t
        from rfl,
      show hasse2 (y :: t') = hilbert2 y y * (t'.map (hilbert2 y)).prod * hasse2 t'
        from rfl,
      ih, prod_map_congr_hilbert x y hx hrest,
      hilbert2_congr x y x y hx.1 hx.2 hx.1 hx.2]

theorem scaleSum_congr {l l' : List (ℕ × ℤ)} (h : List.Forall₂ entCong l l') :
    scaleSum l % 2 = scaleSum l' % 2 := by
  induction h with
  | nil => rfl
  | cons hx hrest ih =>
    obtain ⟨hx1, hx2⟩ := hx
    rw [scaleSum_cons, scaleSum_cons]
    omega

theorem unitProd_congr {l l' : List (ℕ × ℤ)} (h : List.Forall₂ entCong l l') :
    unitProd l % 8 = unitProd l' % 8 := by
  induction h with
  | nil => rfl
  | cons hx hrest ih =>
    rw [unitProd_cons, unitProd_cons, Int.mul_emod, ih, hx.2, ← Int.mul_emod]

theorem equivInv_refl (l : List (ℕ × ℤ)) : EquivInv l l := ⟨rfl, rfl, rfl, rfl⟩

theorem equivInv_symm {l l' : List (ℕ × ℤ)} (h : EquivInv l l') : EquivInv l' l :=
  ⟨h.1.symm, h.2.1.symm, h.2.2.1.symm, h.2.2.2.symm⟩

theorem equivInv_trans {l1 l2 l3 : List (ℕ × ℤ)} (h1 : EquivInv l1 l2)
    (h2 : EquivInv l2 l3) : EquivInv l1 l3 :=
  ⟨h1.1.trans h2.1, h1.2.1.trans h2.2.1, h1.2.2.1.trans h2.2.2.1,
    h1.2.2.2.trans h2.2.2.2⟩

theorem equivInv_of_perm {l l' : List (ℕ × ℤ)} (h : List.Perm l l') : EquivInv l l' :=
  ⟨h.length_eq, by rw [show scaleSum l = scaleSum l' from (h.map Prod.fst).sum_eq],
    by rw [show unitProd l = unitProd l' from (h.map Prod.snd).prod_eq],
    hasse2_perm h⟩

theorem equivInv_of_forall2 {l l' : List (ℕ × ℤ)} (h : List.Forall₂ entCong l l') :
    EquivInv l l' :=
  ⟨h.length_eq, scaleSum_congr h, unitProd_congr h, hasse2_congr h⟩

theorem equivInv_append {l1 l1' l2 l2' : List (ℕ × ℤ)} (h1 : EquivInv l1 l1')
    (h2 : EquivInv l2 l2') (ho1 : AllOdd l1) (ho1' : AllOdd l1') (ho2 : AllOdd l2)
    (ho2' : AllOdd l2') : EquivInv (l1 ++ l2) (l1' ++ l2') := by
  refine ⟨by simp [h1.1, h2.1], ?_, ?_, ?_⟩
  · rw [scaleSum_append, scaleSum_append]
    have := h1.2.1
    have := h2.2.1
    omega
  · rw [unitProd_append, unitProd_append, Int.mul_emod, h1.2.2.1, h2.2.2.1,
      ← Int.mul_emod]
  · rw [hasse2_append l1 l2 ho1 ho2, hasse2_append l1' l2' ho1' ho2',
      h1.2.2.2, h2.2.2.2,
      hilbert2_congr (prodRep l1) (prodRep l1') (prodRep l2) (prodRep l2')
        h1.2.1 h1.2.2.1 h2.2.1 h2.2.2.1]

/-! ## The reduction step preserves the 2-adic invariants -/

/-- The oracle only depends on the coefficients mod 8. -/
theorem oracle_mod8 (a b c : ℤ) :
    does_2adically_rep_zero a b c =
      does_2adically_rep_zero (a % 8) (b % 8) (c % 8) := by
  have key : ∀ x y z : ℤ,
      ((a * x + b * y + c * z) % 8 == 0) =
        ((a % 8 * x + b % 8 * y + c % 8 * z) % 8 == 0) := by
    intro x y z
    have ha : Int.ModEq 8 a (a % 8) := (Int.emod_emod_of_dvd a dvd_rfl).symm
    have hb : Int.ModEq 8 b (b % 8) := (Int.emod_emod_of_dvd b dvd_rfl).symm
    have hc : Int.ModEq 8 c (c % 8) := (Int.emod_emod_of_dvd c dvd_rfl).symm
    have hm : (a * x + b * y + c * z) % 8 = (a % 8 * x + b % 8 * y + c % 8 * z) % 8 :=
      ((ha.mul_right x).add (hb.mul_right y)).add (hc.mul_right z)
    rw [hm]
  unfold does_2adically_rep_zero
  simp only [key]

theorem mul3_emod8 (u1 u2 u3 : ℤ) :
    u1 * u2 * u3 % 8 = u1 % 8 * (u2 % 8) * (u3 % 8) % 8 := by
  conv_lhs => rw [Int.mul_emod, Int.mul_emod u1 u2]
  conv_rhs => rw [Int.mul_emod]
  rw [Int.emod_emod_of_dvd u3 dvd_rfl]

theorem transRep_append (a : ℕ) (l1 l2 : List JB) :
    transRep a (l1 ++ l2) = transRep a l1 ++ transRep a l2 := by
  simp [transRep]

theorem transRep_units (a : ℕ) (us : List ℤ) :
    transRep a (us.map JB.unit) = us.map fun r => (a, r) := by
  induction us with
  | nil => rfl
  | cons x t ih => exact congrArg ((a, x) :: ·) ih

theorem transRep_tripleRepl_true (a : ℕ) (u1 u2 u3 : ℤ)
    (hB : does_2adically_rep_zero u1 u2 u3 = true) :
    transRep a (tripleRepl u1 u2 u3) =
      [(a, -(u1 * u2 * u3) % 8), (a + 1, 1), (a + 1, -1)] := by
  unfold tripleRepl
  rw [if_pos hB]
  rfl

theorem transRep_tripleRepl_false (a : ℕ) (u1 u2 u3 : ℤ)
    (hB : does_2adically_rep_zero u1 u2 u3 = false) :
    transRep a (tripleRepl u1 u2 u3) =
      [(a, 3 * (u1 * u2 * u3) % 8), (a + 1, 1), (a + 1, 3)] := by
  unfold tripleRepl
  rw [if_neg (by rw [hB]; simp)]
  rfl

set_option maxHeartbeats 1000000 in
/-- The finite core of the reduction-step invariance: over all odd residues
mod 8 and both scale parities, replacing a unit triple by the reducer's
output (one unit plus a rank-2 block at the next scale) preserves the Hasse
invariant, the determinant class, and the rank.  This is the
number-theoretic content of Katsurada's case split, checked exhaustively. -/
theorem reduction_step_core :
    ∀ e ∈ ([0, 1] : List ℕ), ∀ r1 ∈ ([1, 3, 5, 7] : List ℤ),
      ∀ r2 ∈ ([1, 3, 5, 7] : List ℤ), ∀ r3 ∈ ([1, 3, 5, 7] : List ℤ),
        hasse2 (transRep e (tripleRepl r1 r2 r3)) =
            hasse2 [(e, r1), (e, r2), (e, r3)] ∧
          unitProd (transRep e (tripleRepl r1 r2 r3)) % 8 =
            unitProd [(e, r1), (e, r2), (e, r3)] % 8 ∧
          scaleSum (transRep e (tripleRepl r1 r2 r3)) % 2 =
            scaleSum [(e, r1), (e, r2), (e, r3)] % 2 ∧
          (transRep e (tripleRepl r1 r2 r3)).length = 3 := by decide

theorem reduction_step (a : ℕ) (u1 u2 u3 : ℤ) (h1 : u1 % 2 = 1) (h2 : u2 % 2 = 1)
    (h3 : u3 % 2 = 1) :
    EquivInv (transRep a (tripleRepl u1 u2 u3)) [(a, u1), (a, u2), (a, u3)] := by
  have hr1 : u1 % 8 ∈ ([1, 3, 5, 7] : List ℤ) := by
    rcases odd_emod8 u1 h1 with h | h | h | h <;> simp [h]
  have hr2 : u2 % 8 ∈ ([1, 3, 5, 7] : List ℤ) := by
    rcases odd_emod8 u2 h2 with h | h | h | h <;> simp [h]
  have hr3 : u3 % 8 ∈ ([1, 3, 5, 7] : List ℤ) := by
    rcases odd_emod8 u3 h3 with h | h | h | h <;> simp [h]
  have hem : a % 2 ∈ ([0, 1] : List ℕ) := by
    have : a % 2 = 0 ∨ a % 2 = 1 := by omega
    rcases this with h | h <;> simp [h]
  have core := reduction_step_core (a % 2) hem (u1 % 8) hr1 (u2 % 8) hr2 (u3 % 8) hr3
  have coreEquiv : EquivInv (transRep (a % 2) (tripleRepl (u1 % 8) (u2 % 8) (u3 % 8)))
      [(a % 2, u1 % 8), (a % 2, u2 % 8), (a % 2, u3 % 8)] := by
    refine ⟨?_, core.2.2.1, core.2.1, core.1⟩
    rw [core.2.2.2]
    rfl
  have horacle := oracle_mod8 u1 u2 u3
  have hprod8 : u1 * u2 * u3 % 8 = u1 % 8 * (u2 % 8) * (u3 % 8) % 8 :=
    mul3_emod8 u1 u2 u3
  have hF1 : List.Forall₂ entCong (transRep a (tripleRepl u1 u2 u3))
      (transRep (a % 2) (tripleRepl (u1 % 8) (u2 % 8) (u3 % 8))) := by
    cases hB : does_2adically_rep_zero u1 u2 u3 with
    | true =>
      rw [transRep_tripleRepl_true a u1 u2 u3 hB,
        transRep_tripleRepl_true (a % 2) _ _ _ (by rw [← horacle]; exact hB)]
      refine List.Forall₂.cons ⟨by omega, ?_⟩ (List.Forall₂.cons ⟨by omega, by omega⟩
        (List.Forall₂.cons ⟨by omega, by omega⟩ List.Forall₂.nil))
      show -(u1 * u2 * u3) % 8 % 8 = -(u1 % 8 * (u2 % 8) * (u3 % 8)) % 8 % 8
      generalize hgx : u1 * u2 * u3 = x at hprod8
      generalize hgy : u1 % 8 * (u2 % 8) * (u3 % 8) = y at hprod8
      omega
    | false =>
      rw [transRep_tripleRepl_false a u1 u2 u3 hB,
        transRep_tripleRepl_false (a % 2) _ _ _ (by rw [← horacle]; exact hB)]
      refine List.Forall₂.cons ⟨by omega, ?_⟩ (List.Forall₂.cons ⟨by omega, by omega⟩
        (List.Forall₂.cons ⟨by omega, by omega⟩ List.Forall₂.nil))
      show 3 * (u1 * u2 * u3) % 8 % 8 = 3 * (u1 % 8 * (u2 % 8) * (u3 % 8)) % 8 % 8
      generalize hgx : u1 * u2 * u3 = x at hprod8
      generalize hgy : u1 % 8 * (u2 % 8) * (u3 % 8) = y at hprod8
      omega
  have hF2 : List.Forall₂ entCong
      [(a % 2, u1 % 8), (a % 2, u2 % 8), (a % 2, u3 % 8)] [(a, u1), (a, u2), (a, u3)] :=
    List.Forall₂.cons ⟨by omega, by omega⟩ (List.Forall₂.cons ⟨by omega, by omega⟩
      (List.Forall₂.cons ⟨by omega, by omega⟩ List.Forall₂.nil))
  exact equivInv_trans (equivInv_of_forall2 hF1)
    (equivInv_trans coreEquiv (equivInv_of_forall2 hF2))

/-! ## The reducer preserves the 2-adic invariants at every fuel level -/

theorem odd_resVals_tripleRepl (u1 u2 u3 : ℤ) (h1 : u1 % 2 = 1) (h2 : u2 % 2 = 1)
    (h3 : u3 % 2 = 1) : ∀ r ∈ resVals (tripleRepl u1 u2 u3), r % 2 = 1 := by
  have hprod : u1 * u2 * u3 % 2 = 1 := by
    have h12 : u1 * u2 % 2 = 1 := by
      rw [Int.mul_emod, h1, h2]
      decide
    rw [Int.mul_emod, h12, h3]
    decide
  unfold tripleRepl
  split <;> intro r hr <;> simp [resVals] at hr <;> subst hr <;> omega

theorem jb_partition_perm (l : List JB) :
    List.Perm l ((resVals l).map JB.unit ++ l.filter isMarkerB) := by
  induction l with
  | nil => rfl
  | cons b t ih =>
    cases b with
    | unit r =>
      show List.Perm (JB.unit r :: t) (JB.unit r :: ((resVals t).map JB.unit ++ _))
      exact ih.cons _
    | h =>
      refine (ih.cons JB.h).trans ?_
      exact List.perm_middle.symm
    | y =>
      refine (ih.cons JB.y).trans ?_
      exact List.perm_middle.symm

theorem transRep_allOdd (a : ℕ) (l : List JB)
    (h : ∀ r ∈ resVals l, r % 2 = 1) : AllOdd (transRep a l) := by
  induction l with
  | nil => intro d hd; simp [transRep] at hd
  | cons b t ih =>
    have hstep : ∀ d ∈ jbRepAt a b, d.2 % 2 = 1 := by
      cases b with
      | unit r =>
        intro d hd
        simp only [jbRepAt, isMarkerB, jbRep, Bool.false_eq_true, if_false,
          List.mem_singleton] at hd
        rw [hd]
        exact h r (List.mem_cons_self r (resVals t))
      | h =>
        intro d hd
        simp only [jbRepAt, isMarkerB, jbRep, if_true, List.mem_cons,
          List.not_mem_nil, or_false] at hd
        rcases hd with rfl | rfl
        exacts [show (1 : ℤ) % 2 = 1 by decide, show (-1 : ℤ) % 2 = 1 by decide]
      | y =>
        intro d hd
        simp only [jbRepAt, isMarkerB, jbRep, if_true, List.mem_cons,
          List.not_mem_nil, or_false] at hd
        rcases hd with rfl | rfl
        exacts [show (1 : ℤ) % 2 = 1 by decide, show (3 : ℤ) % 2 = 1 by decide]
    have htail : ∀ r ∈ resVals t, r % 2 = 1 := by
      intro r hr
      apply h r
      cases b with
      | unit s => exact List.mem_cons_of_mem s hr
      | h => exact hr
      | y => exact hr
    intro d hd
    have hd2 : d ∈ jbRepAt a b ++ transRep a t := hd
    rcases List.mem_append.1 hd2 with hd1 | hd1
    · exact hstep d hd1
    · exact ih htail d hd1

theorem allOdd_map_scale (a : ℕ) (us : List ℤ) (h : ∀ x ∈ us, x % 2 = 1) :
    AllOdd (us.map fun r => (a, r)) := by
  intro d hd
  obtain ⟨r, hr, rfl⟩ := List.mem_map.1 hd
  exact h r hr

theorem transF_equivInv (f : ℕ) (a : ℕ) : ∀ us : List ℤ, (∀ x ∈ us, x % 2 = 1) →
    EquivInv (transRep a (transF f us)) (us.map fun r => (a, r)) := by
  induction f with
  | zero =>
    intro us _
    rw [transF_zero, transRep_units]
    exact equivInv_refl _
  | succ f ih =>
    intro us hodd
    match us with
    | [] =>
      rw [transF_nil]
      exact equivInv_refl []
    | [u1] =>
      rw [transF_one]
      show EquivInv (transRep a ([u1].map JB.unit)) _
      rw [transRep_units]
      exact equivInv_refl _
    | [u1, u2] =>
      rw [transF_two]
      show EquivInv (transRep a ([u1, u2].map JB.unit)) _
      rw [transRep_units]
      exact equivInv_refl _
    | u1 :: u2 :: u3 :: rest =>
      have h1 : u1 % 2 = 1 := hodd u1 (by simp)
      have h2 : u2 % 2 = 1 := hodd u2 (by simp)
      have h3 : u3 % 2 = 1 := hodd u3 (by simp)
      have hrest : ∀ x ∈ rest, x % 2 = 1 := fun x hx => hodd x (by simp [hx])
      have hoddF : ∀ r ∈ resVals (transF f rest), r % 2 = 1 :=
        odd_resVals_transF f rest hrest
      have hoddRepl : ∀ r ∈ resVals (tripleRepl u1 u2 u3), r % 2 = 1 :=
        odd_resVals_tripleRepl u1 u2 u3 h1 h2 h3
      have hoddl : ∀ r ∈ resVals (transF f rest ++ tripleRepl u1 u2 u3), r % 2 = 1 := by
        rw [resVals_append]
        intro r hr
        rcases List.mem_append.1 hr with hr | hr
        · exact hoddF r hr
        · exact hoddRepl r hr
      have hA1 : AllOdd (transRep a (transF f rest)) := transRep_allOdd a _ hoddF
      have hA2 : AllOdd (transRep a (tripleRepl u1 u2 u3)) := transRep_allOdd a _ hoddRepl
      have hA3 : AllOdd (rest.map fun r => (a, r)) := allOdd_map_scale a rest hrest
      have hA4 : AllOdd [(a, u1), (a, u2), (a, u3)] := by
        intro d hd
        simp only [List.mem_cons, List.not_mem_nil, or_false] at hd
        rcases hd with rfl | rfl | rfl
        exacts [h1, h2, h3]
      have hperm : List.Perm ((rest.map fun r => (a, r)) ++ [(a, u1), (a, u2), (a, u3)])
          ((u1 :: u2 :: u3 :: rest).map fun r => (a, r)) := by
        rw [show ((u1 :: u2 :: u3 :: rest).map fun r => (a, r)) =
          [(a, u1), (a, u2), (a, u3)] ++ rest.map fun r => (a, r) from rfl]
        exact List.perm_append_comm
      have hmain : EquivInv (transRep a (transF f rest ++ tripleRepl u1 u2 u3))
          ((u1 :: u2 :: u3 :: rest).map fun r => (a, r)) := by
        rw [transRep_append]
        exact equivInv_trans
          (equivInv_append (ih rest hrest) (reduction_step a u1 u2 u3 h1 h2 h3)
            hA1 hA3 hA2 hA4)
          (equivInv_of_perm hperm)
      rw [transF_cons3]
      split
      · exact hmain
      · rw [transRep_append]
        have hIH2 := ih (resVals (transF f rest ++ tripleRepl u1 u2 u3)) hoddl
        have hpart := jb_partition_perm (transF f rest ++ tripleRepl u1 u2 u3)
        have hsplit : transRep a
            ((resVals (transF f rest ++ tripleRepl u1 u2 u3)).map JB.unit ++
              (transF f rest ++ tripleRepl u1 u2 u3).filter isMarkerB) =
            ((resVals (transF f rest ++ tripleRepl u1 u2 u3)).map fun r => (a, r)) ++
              transRep a ((transF f rest ++ tripleRepl u1 u2 u3).filter isMarkerB) := by
          rw [transRep_append, transRep_units]
        have hmarkOdd : AllOdd (transRep a
            ((transF f rest ++ tripleRepl u1 u2 u3).filter isMarkerB)) := by
          apply transRep_allOdd
          rw [resVals_filter_marker]
          intro r hr
          simp at hr
        refine equivInv_trans
          (equivInv_append hIH2 (equivInv_refl _)
            (transRep_allOdd a _ (odd_resVals_transF f _ hoddl))
            (allOdd_map_scale a _ hoddl) hmarkOdd hmarkOdd)
          (equivInv_trans (equivInv_of_perm ?_) hmain)
        rw [← hsplit]
        exact (hpart.flatMap_right (jbRepAt a)).symm

/-! ## Representation lemmas for the full 2-adic pipeline -/

theorem repList_append (a b : List (ℕ × JB)) :
    repList (a ++ b) = repList a ++ repList b := by
  simp [repList]

theorem repList_flatMap {α : Type} (l : List α) (F : α → List (ℕ × JB)) :
    repList (l.flatMap F) = l.flatMap fun x => repList (F x) := by
  induction l with
  | nil => rfl
  | cons x t ih => rw [List.flatMap_cons, repList_append, List.flatMap_cons, ih]

theorem repList_retag (k : ℕ) (ts : List JB) :
    repList (ts.map fun b => if isMarkerB b then (k + 1, b) else (k, b)) =
      transRep k ts := by
  induction ts with
  | nil => rfl
  | cons b t ih =>
    cases b with
    | unit r => exact congrArg ((k, r) :: ·) ih
    | h => exact congrArg (fun l => (k + 1, 1) :: (k + 1, -1) :: l) ih
    | y => exact congrArg (fun l => (k + 1, 1) :: (k + 1, 3) :: l) ih

theorem repList_groupOut (g : ℕ × List (ℕ × JB)) :
    repList (groupOut g) = transRep g.1 (trans_jordan_dec_2 (unitValsOf g.2)) :=
  repList_retag g.1 _

theorem repList_units_group (k : ℕ) (g : List (ℕ × JB)) (hk : ∀ x ∈ g, x.1 = k)
    (hu : ∀ x ∈ g, isMarkerB x.2 = false) :
    repList g = (unitValsOf g).map fun r => (k, r) := by
  induction g with
  | nil => rfl
  | cons x t ih =>
    have hx1 : x.1 = k := hk x (by simp)
    have hxu := hu x (by simp)
    have iht := ih (fun y hy => hk y (by simp [hy])) fun y hy => hu y (by simp [hy])
    obtain ⟨x1, x2⟩ := x
    cases x2 with
    | unit r =>
      simp only at hx1
      subst hx1
      exact congrArg ((x1, r) :: ·) iht
    | h => simp [isMarkerB] at hxu
    | y => simp [isMarkerB] at hxu

/-- Unit residues emitted by the peeling loop are always odd (they exist only
in the `m00` odd branch, reduced mod 8). -/
theorem odd_units_peel :
    ∀ n (a : ℕ) (m : Mat), m.length = n →
      ∀ x ∈ peel a m, ∀ r, x.2 = JB.unit r → r % 2 = 1 := by
  intro n
  induction n using Nat.strong_induction_on with
  | _ n IH =>
    intro a m hlen x hx r hr
    rw [peel] at hx
    split at hx
    · simp at hx
    · rename_i hz
      have hpos : 0 < m.length := isZeroMat_false_pos hz
      split at hx
      · rename_i hoddm
        rcases List.mem_cons.1 hx with rfl | hx2
        · simp only at hr
          cases hr
          omega
        · exact IH (submat 1 m).length
            (by simp only [submat, List.length_map, List.length_drop]; omega)
            a (submat 1 m) rfl x hx2 r hr
      · split at hx
        · rcases List.mem_cons.1 hx with rfl | hx2
          · simp at hr
          · exact IH (submat 2 m).length
              (by simp only [submat, List.length_map, List.length_drop]; omega)
              a (submat 2 m) rfl x hx2 r hr
        · rcases List.mem_cons.1 hx with rfl | hx2
          · simp at hr
          · exact IH (submat 2 m).length
              (by simp only [submat, List.length_map, List.length_drop]; omega)
              a (submat 2 m) rfl x hx2 r hr

theorem odd_units_peelAll (scs : List (ℕ × Mat)) :
    ∀ x ∈ peelAll scs, ∀ r, x.2 = JB.unit r → r % 2 = 1 := by
  intro x hx r hr
  obtain ⟨sc, _, hxp⟩ := List.mem_flatMap.1 hx
  exact odd_units_peel (sc.2.length) sc.1 sc.2 rfl x hxp r hr

theorem repList_allOdd (l : List (ℕ × JB))
    (h : ∀ x ∈ l, ∀ r, x.2 = JB.unit r → r % 2 = 1) : AllOdd (repList l) := by
  induction l with
  | nil => intro d hd; simp [repList] at hd
  | cons x t ih =>
    intro d hd
    have hd2 : d ∈ jbRep x ++ repList t := hd
    rcases List.mem_append.1 hd2 with hd1 | hd1
    · obtain ⟨x1, x2⟩ := x
      cases x2 with
      | unit r =>
        simp only [jbRep, List.mem_singleton] at hd1
        rw [hd1]
        exact h (x1, JB.unit r) (by simp) r rfl
      | h =>
        simp only [jbRep, List.mem_cons, List.not_mem_nil, or_false] at hd1
        rcases hd1 with rfl | rfl
        exacts [show (1 : ℤ) % 2 = 1 by decide, show (-1 : ℤ) % 2 = 1 by decide]
      | y =>
        simp only [jbRep, List.mem_cons, List.not_mem_nil, or_false] at hd1
        rcases hd1 with rfl | rfl
        exacts [show (1 : ℤ) % 2 = 1 by decide, show (3 : ℤ) % 2 = 1 by decide]
    · exact ih (fun y hy => h y (by simp [hy])) d hd1

theorem forall2_append {α : Type} {R : α → α → Prop} {l1 l2 l3 l4 : List α}
    (h1 : List.Forall₂ R l1 l2) (h2 : List.Forall₂ R l3 l4) :
    List.Forall₂ R (l1 ++ l3) (l2 ++ l4) := by
  induction h1 with
  | nil => exact h2
  | cons hx _ ih => exact List.Forall₂.cons hx ih

theorem forall2_flatMap {α β : Type} (R : β → β → Prop) (l : List α)
    (f g : α → List β) (h : ∀ a ∈ l, List.Forall₂ R (f a) (g a)) :
    List.Forall₂ R (l.flatMap f) (l.flatMap g) := by
  induction l with
  | nil => exact List.Forall₂.nil
  | cons x t ih =>
    rw [List.flatMap_cons, List.flatMap_cons]
    exact forall2_append (h x (by simp)) (ih fun a ha => h a (by simp [ha]))

theorem forall2_map {α β : Type} (R : β → β → Prop) (l : List α) (f g : α → β)
    (h : ∀ x ∈ l, R (f x) (g x)) : List.Forall₂ R (l.map f) (l.map g) := by
  induction l with
  | nil => exact List.Forall₂.nil
  | cons x t ih =>
    exact List.Forall₂.cons (h x (by simp)) (ih fun a ha => h a (by simp [ha]))

theorem emit_rep_cong (a : ℕ) (t : Atom) :
    List.Forall₂ entCong (jbRep (emitAtom a t)) (atomRep a t) := by
  cases t with
  | unit u =>
    exact List.Forall₂.cons ⟨rfl, by omega⟩ List.Forall₂.nil
  | hyp =>
    exact List.Forall₂.cons ⟨rfl, rfl⟩ (List.Forall₂.cons ⟨rfl, rfl⟩ List.Forall₂.nil)
  | ypair =>
    exact List.Forall₂.cons ⟨rfl, rfl⟩ (List.Forall₂.cons ⟨rfl, rfl⟩ List.Forall₂.nil)

theorem repList_emit_cong (a : ℕ) (atoms : List Atom) :
    List.Forall₂ entCong (repList (atoms.map (emitAtom a))) (atoms.flatMap (atomRep a)) := by
  induction atoms with
  | nil => exact List.Forall₂.nil
  | cons t rest ih =>
    show List.Forall₂ entCong (jbRep (emitAtom a t) ++ repList (rest.map (emitAtom a)))
      (atomRep a t ++ rest.flatMap (atomRep a))
    exact forall2_append (emit_rep_cong a t) ih

theorem allOdd_flatMap {α : Type} (l : List α) (f : α → List (ℕ × ℤ))
    (h : ∀ x ∈ l, AllOdd (f x)) : AllOdd (l.flatMap f) := by
  intro d hd
  obtain ⟨x, hx, hdx⟩ := List.mem_flatMap.1 hd
  exact h x hx d hdx

theorem equivInv_flatMap {α : Type} (l : List α) (f g : α → List (ℕ × ℤ))
    (hpt : ∀ x ∈ l, EquivInv (f x) (g x)) (hof : ∀ x ∈ l, AllOdd (f x))
    (hog : ∀ x ∈ l, AllOdd (g x)) : EquivInv (l.flatMap f) (l.flatMap g) := by
  induction l with
  | nil => exact equivInv_refl _
  | cons x t ih =>
    rw [List.flatMap_cons, List.flatMap_cons]
    exact equivInv_append (hpt x (by simp))
      (ih (fun y hy => hpt y (by simp [hy])) (fun y hy => hof y (by simp [hy]))
        fun y hy => hog y (by simp [hy]))
      (hof x (by simp)) (hog x (by simp))
      (allOdd_flatMap t f fun y hy => hof y (by simp [hy]))
      (allOdd_flatMap t g fun y hy => hog y (by simp [hy]))

theorem mem_unitValsOf {g : List (ℕ × JB)} {v : ℤ} (hv : v ∈ unitValsOf g) :
    ∃ x ∈ g, x.2 = JB.unit v := by
  obtain ⟨x, hx, hsome⟩ := List.mem_filterMap.1 hv
  refine ⟨x, hx, ?_⟩
  cases hx2 : x.2 with
  | unit r =>
    rw [hx2] at hsome
    simp only [Option.some.injEq] at hsome
    rw [hsome]
  | h => rw [hx2] at hsome; simp at hsome
  | y => rw [hx2] at hsome; simp at hsome

/-- The master 2-adic invariance: `jordan_blocks_2` preserves the dimension,
the determinant class and the Hasse invariant of the decomposition it is
given. -/
theorem jb2_master (scs : List (ℕ × List Atom)) (hodd : OddUnits scs) :
    EquivInv (repList (jordan_blocks_2 (scsMat scs))) (inputRep2 scs) := by
  have hsort := List.perm_insertionSort descRel (res2 (scsMat scs))
  refine equivInv_trans (equivInv_of_perm (hsort.flatMap_right jbRep)) ?_
  show EquivInv (repList (res2 (scsMat scs))) (inputRep2 scs)
  unfold res2
  rw [repList_append]
  have hdgsub : ∀ x ∈ (peelAll (scsMat scs)).filter fun x => !(isMarkerB x.2),
      x ∈ peelAll (scsMat scs) := fun x hx => (List.mem_filter.1 hx).1
  have hdgunits : ∀ x ∈ (peelAll (scsMat scs)).filter fun x => !(isMarkerB x.2),
      isMarkerB x.2 = false := by
    intro x hx
    have := (List.mem_filter.1 hx).2
    simpa using this
  have hmkOdd : AllOdd (repList ((peelAll (scsMat scs)).filter fun x => isMarkerB x.2)) :=
    repList_allOdd _ fun x hx r hr =>
      odd_units_peelAll (scsMat scs) x (List.mem_filter.1 hx).1 r hr
  have hdgOdd : AllOdd (repList ((peelAll (scsMat scs)).filter fun x => !(isMarkerB x.2))) :=
    repList_allOdd _ fun x hx r hr =>
      odd_units_peelAll (scsMat scs) x (hdgsub x hx) r hr
  have hgfacts : ∀ g ∈ listGroupBy ((peelAll (scsMat scs)).filter fun x => !(isMarkerB x.2)),
      (∀ x ∈ g.2, x.1 = g.1) ∧ (∀ x ∈ g.2, isMarkerB x.2 = false) ∧
        (∀ x ∈ g.2, x ∈ peelAll (scsMat scs)) := by
    intro g hg
    unfold listGroupBy at hg
    obtain ⟨k, _, rfl⟩ := List.mem_map.1 hg
    refine ⟨?_, ?_, ?_⟩
    · intro x hx
      have := (List.mem_filter.1 hx).2
      simpa using this
    · intro x hx
      exact hdgunits x (List.mem_filter.1 hx).1
    · intro x hx
      exact hdgsub x (List.mem_filter.1 hx).1
  have hvodd : ∀ g ∈ listGroupBy ((peelAll (scsMat scs)).filter fun x => !(isMarkerB x.2)),
      ∀ v ∈ unitValsOf g.2, v % 2 = 1 := by
    intro g hg v hv
    obtain ⟨x, hx, hxu⟩ := mem_unitValsOf hv
    exact odd_units_peelAll (scsMat scs) x ((hgfacts g hg).2.2 x hx) v hxu
  have hgrp : ∀ g ∈ listGroupBy ((peelAll (scsMat scs)).filter fun x => !(isMarkerB x.2)),
      EquivInv (repList (groupOut g)) (repList g.2) := by
    intro g hg
    rw [repList_groupOut,
      repList_units_group g.1 g.2 (hgfacts g hg).1 (hgfacts g hg).2.1]
    exact transF_equivInv (unitValsOf g.2).length g.1 (unitValsOf g.2) (hvodd g hg)
  have hof : ∀ g ∈ listGroupBy ((peelAll (scsMat scs)).filter fun x => !(isMarkerB x.2)),
      AllOdd (repList (groupOut g)) := by
    intro g hg
    rw [repList_groupOut]
    exact transRep_allOdd _ _ (odd_resVals_transF _ _ (hvodd g hg))
  have hog : ∀ g ∈ listGroupBy ((peelAll (scsMat scs)).filter fun x => !(isMarkerB x.2)),
      AllOdd (repList g.2) := by
    intro g hg
    exact repList_allOdd _ fun x hx r hr =>
      odd_units_peelAll (scsMat scs) x ((hgfacts g hg).2.2 x hx) r hr
  have hgroups : EquivInv
      (repList ((listGroupBy ((peelAll (scsMat scs)).filter fun x =>
        !(isMarkerB x.2))).flatMap groupOut))
      (repList ((peelAll (scsMat scs)).filter fun x => !(isMarkerB x.2))) := by
    rw [repList_flatMap]
    refine equivInv_trans (equivInv_flatMap _ _ _ hgrp hof hog) ?_
    rw [← repList_flatMap]
    exact equivInv_of_perm
      ((groups_flatten_perm ((peelAll (scsMat scs)).filter fun x =>
        !(isMarkerB x.2))).flatMap_right jbRep)
  have hgroupsOdd : AllOdd
      (repList ((listGroupBy ((peelAll (scsMat scs)).filter fun x =>
        !(isMarkerB x.2))).flatMap groupOut)) := by
    rw [repList_flatMap]
    exact allOdd_flatMap _ _ hof
  refine equivInv_trans
    (equivInv_append (equivInv_refl _) hgroups hmkOdd hmkOdd hgroupsOdd hdgOdd) ?_
  rw [← repList_append]
  have hpartPerm : List.Perm
      (repList ((peelAll (scsMat scs)).filter (fun x => isMarkerB x.2) ++
        (peelAll (scsMat scs)).filter fun x => !(isMarkerB x.2)))
      (repList (peelAll (scsMat scs))) :=
    (List.filter_append_perm (fun x : ℕ × JB => isMarkerB x.2)
      (peelAll (scsMat scs))).flatMap_right jbRep
  refine equivInv_trans (equivInv_of_perm hpartPerm) ?_
  apply equivInv_of_forall2
  unfold peelAll scsMat inputRep2
  rw [List.flatMap_map, repList_flatMap]
  apply forall2_flatMap
  intro sc hsc
  rw [peel_toMatrix sc.1 sc.2 (hodd sc hsc)]
  exact repList_emit_cong sc.1 sc.2

/-! ## Odd-prime invariance -/

theorem hilbertOdd_symm (ep : ℕ) (chi : ℤ → ℤ) (d e : ℕ × ℤ) :
    hilbertOdd ep chi d e = hilbertOdd ep chi e d := by
  unfold hilbertOdd
  rw [show d.1 * e.1 * ep = e.1 * d.1 * ep by ring]
  ring

theorem hilbertOdd_congr (ep : ℕ) (chi : ℤ → ℤ) (d d' e e' : ℕ × ℤ)
    (hd : chiRel chi d d') (he : chiRel chi e e') :
    hilbertOdd ep chi d e = hilbertOdd ep chi d' e' := by
  unfold hilbertOdd
  rw [hd.1, he.1, hd.2, he.2]

theorem prod_map_congr_hilbertOdd (ep : ℕ) (chi : ℤ → ℤ) (d d' : ℕ × ℤ)
    (hd : chiRel chi d d') {t t' : List (ℕ × ℤ)}
    (h : List.Forall₂ (chiRel chi) t t') :
    (t.map (hilbertOdd ep chi d)).prod = (t'.map (hilbertOdd ep chi d')).prod := by
  induction h with
  | nil => rfl
  | cons hx hrest ih =>
    rw [List.map_cons, List.map_cons, List.prod_cons, List.prod_cons, ih,
      hilbertOdd_congr ep chi _ _ _ _ hd hx]

theorem hasseOdd_congr (ep : ℕ) (chi : ℤ → ℤ) {l l' : List (ℕ × ℤ)}
    (h : List.Forall₂ (chiRel chi) l l') : hasseOdd ep chi l = hasseOdd ep chi l' := by
  induction h with
  | nil => rfl
  | cons hx hrest ih =>
    rename_i x y t t'
    show hasseOdd ep chi (x :: t) = hasseOdd ep chi (y :: t')
    rw [show hasseOdd ep chi (x :: t) =
        hilbertOdd ep chi x x * (t.map (hilbertOdd ep chi x)).prod * hasseOdd ep chi t
        from rfl,
      show hasseOdd ep chi (y :: t') =
        hilbertOdd ep chi y y * (t'.map (hilbertOdd ep chi y)).prod * hasseOdd ep chi t'
        from rfl,
      ih, prod_map_congr_hilbertOdd ep chi x y hx hrest,
      hilbertOdd_congr ep chi x y x y hx hx]

theorem chiProd_congr (chi : ℤ → ℤ) {l l' : List (ℕ × ℤ)}
    (h : List.Forall₂ (chiRel chi) l l') :
    (l.map fun d => chi d.2).prod = (l'.map fun d => chi d.2).prod := by
  induction h with
  | nil => rfl
  | cons hx hrest ih =>
    rw [List.map_cons, List.map_cons, List.prod_cons, List.prod_cons, ih, hx.2]

theorem scaleSum_eq_congr (chi : ℤ → ℤ) {l l' : List (ℕ × ℤ)}
    (h : List.Forall₂ (chiRel chi) l l') : scaleSum l = scaleSum l' := by
  induction h with
  | nil => rfl
  | cons hx hrest ih =>
    rw [scaleSum_cons, scaleSum_cons, ih, hx.1]

/-! ## Claim C1 -/

/-- Claim C1: the equivalence round-trip.  Lifting the splitter's output back
to a form yields a form p-adically equivalent to the input: same dimension,
same determinant class, and same Hasse invariant.  The lifted form's
invariants are computed on the blocks' standard diagonalizations (`repList`),
the input form's on its raw decomposition (`inputRep2` / `inputRepOdd`); the
2-adic Hilbert symbol and determinant class work mod 8 and mod squares, the
odd-prime ones through the external Legendre oracle `chi` (with `ep` the
parity of `(p-1)/2`), as the spec's external verification oracles prescribe. -/
theorem equivalence_roundtrip :
    (∀ scs : List (ℕ × List Atom), OddUnits scs →
      (repList (jordan_blocks_2 (scsMat scs))).length = (inputRep2 scs).length ∧
      detClass2 (repList (jordan_blocks_2 (scsMat scs))) = detClass2 (inputRep2 scs) ∧
      hasse2 (repList (jordan_blocks_2 (scsMat scs))) = hasse2 (inputRep2 scs)) ∧
    ∀ (scs : List (ℕ × List ℤ)) (chi : ℤ → ℤ) (unr : ℤ) (ep : ℕ),
      chi 1 = 1 → chi unr = -1 →
      (∀ sc ∈ scs, ∀ t ∈ sc.2, chi t = 1 ∨ chi t = -1) →
      (jordan_blocks_odd scs chi unr).length = (inputRepOdd scs).length ∧
      detClassOdd chi (jordan_blocks_odd scs chi unr) = detClassOdd chi (inputRepOdd scs) ∧
      hasseOdd ep chi (jordan_blocks_odd scs chi unr) = hasseOdd ep chi (inputRepOdd scs) := by
  constructor
  · intro scs hodd
    have hm := jb2_master scs hodd
    refine ⟨hm.1, ?_, hm.2.2.2⟩
    unfold detClass2
    rw [hm.2.1, hm.2.2.1]
  · intro scs chi unr ep hchi1 hchiu hunits
    have hrev : List.Perm (jordan_blocks_odd scs chi unr)
        (scs.flatMap fun sc => sc.2.map fun t =>
          if chi t = 1 then (sc.1, 1) else (sc.1, unr)) := List.reverse_perm _
    have hF : List.Forall₂ (chiRel chi)
        (scs.flatMap fun sc => sc.2.map fun t =>
          if chi t = 1 then (sc.1, 1) else (sc.1, unr)) (inputRepOdd scs) := by
      unfold inputRepOdd
      apply forall2_flatMap
      intro sc hsc
      apply forall2_map
      intro t ht
      by_cases hc : chi t = 1
      · rw [if_pos hc]
        exact ⟨rfl, by rw [hchi1, hc]⟩
      · rw [if_neg hc]
        have hneg : chi t = -1 := (hunits sc hsc t ht).resolve_left hc
        exact ⟨rfl, by rw [hchiu, hneg]⟩
    refine ⟨hrev.length_eq.trans hF.length_eq, ?_, ?_⟩
    · unfold detClassOdd
      rw [show scaleSum (jordan_blocks_odd scs chi unr) = scaleSum (inputRepOdd scs) from
          ((hrev.map Prod.fst).sum_eq).trans (scaleSum_eq_congr chi hF),
        show ((jordan_blocks_odd scs chi unr).map fun d => chi d.2).prod =
            ((inputRepOdd scs).map fun d => chi d.2).prod from
          ((hrev.map fun d => chi d.2).prod_eq).trans (chiProd_congr chi hF)]
    · exact (hasseGen_perm (hilbertOdd ep chi) (hilbertOdd_symm ep chi) hrev).trans
        (hasseOdd_congr ep chi hF)

/-- Witness for C1: the rank-4 identity form `diag(1,1,1,1)` at `p = 2` (the
spec's end-to-end scenario, which exercises the unit-triple reduction), and
`diag(1, 2)` at `p = 3` with the concrete Legendre oracle. -/
theorem equivalence_roundtrip_witness :
    ((repList (jordan_blocks_2 (scsMat
        [(0, [Atom.unit 1, Atom.unit 1, Atom.unit 1, Atom.unit 1])]))).length =
      (inputRep2 [(0, [Atom.unit 1, Atom.unit 1, Atom.unit 1, Atom.unit 1])]).length ∧
    detClass2 (repList (jordan_blocks_2 (scsMat
        [(0, [Atom.unit 1, Atom.unit 1, Atom.unit 1, Atom.unit 1])]))) =
      detClass2 (inputRep2 [(0, [Atom.unit 1, Atom.unit 1, Atom.unit 1, Atom.unit 1])]) ∧
    hasse2 (repList (jordan_blocks_2 (scsMat
        [(0, [Atom.unit 1, Atom.unit 1, Atom.unit 1, Atom.unit 1])]))) =
      hasse2 (inputRep2 [(0, [Atom.unit 1, Atom.unit 1, Atom.unit 1, Atom.unit 1])])) ∧
    ((jordan_blocks_odd [(0, [1, 2])] chi0 2).length =
      (inputRepOdd [(0, [1, 2])]).length ∧
    detClassOdd chi0 (jordan_blocks_odd [(0, [1, 2])] chi0 2) =
      detClassOdd chi0 (inputRepOdd [(0, [1, 2])]) ∧
    hasseOdd 1 chi0 (jordan_blocks_odd [(0, [1, 2])] chi0 2) =
      hasseOdd 1 chi0 (inputRepOdd [(0, [1, 2])])) :=
  ⟨equivalence_roundtrip.1 [(0, [Atom.unit 1, Atom.unit 1, Atom.unit 1, Atom.unit 1])] (by
    intro sc hsc
    simp only [List.mem_singleton] at hsc
    subst hsc
    intro u hu
    simp only [List.mem_cons, List.not_mem_nil, or_false, Atom.unit.injEq] at hu
    rcases hu with rfl | rfl | rfl | rfl <;> decide),
   equivalence_roundtrip.2 [(0, [1, 2])] chi0 2 1 (by decide) (by decide) (by
    intro sc hsc
    simp only [List.mem_singleton] at hsc
    subst hsc
    intro t ht
    simp only [List.mem_cons, List.not_mem_nil, or_false] at ht
    rcases ht with rfl | rfl
    · left
      decide
    · right
      decide)⟩

end SiegelSeries
